import Mathlib

/-!
Verification of the `time_track` in-memory event database (`src/lib.rs`).

The Rust code is shallowly embedded as follows:
* `HashMap<u16, Tag>` becomes an association list `List (Nat × Tag)`; the list
  order stands for the (arbitrary) hash-map iteration order.  Tag ids are
  `u16` values, modelled as `Nat` together with a `< 65536` bound in the
  well-formedness predicate where the bound matters.
* `BTreeMap<i64, Event>` becomes a `List (Int × Event)` kept sorted by
  strictly ascending timestamp (the well-formedness predicate records this);
  `BTreeMap::insert` becomes `insertEvent`, iteration in reverse becomes
  `List.reverse`.
* Fallible operations return `Except`; in the source every error path
  returns before any mutation, so an `Except.error` result means the store
  is unchanged.
* Panicking `unwrap`/index expressions are modelled by the corresponding
  `Option` lookup; the theorems for the safety claims show those lookups
  never return `none` on the paths the source unwraps them.
-/

deriving instance DecidableEq for Except

namespace TimeTrack

/-- First index at which the predicate holds, mirroring
`iter().enumerate().find(...)` / `iter().position(...)` in the source. -/
def idxOfP {α : Type} (p : α → Bool) : List α → Option Nat
  | [] => none
  | a :: l => if p a then some 0 else (idxOfP p l).map (· + 1)

/-- Auxiliary recursion for `dedupConsec`: `a` is the most recent element
kept, not yet emitted. -/
def dedupConsecAux {α : Type} [DecidableEq α] (a : α) : List α → List α
  | [] => [a]
  | b :: l => if a = b then dedupConsecAux a l else a :: dedupConsecAux b l

/-- Removal of consecutive duplicates, mirroring `Vec::dedup` (which keeps
the first element of each run of equal elements). -/
def dedupConsec {α : Type} [DecidableEq α] : List α → List α
  | [] => []
  | a :: l => dedupConsecAux a l

/-- Ordered insertion, the auxiliary step of `sortBy`. -/
def insertSorted {α : Type} (le : α → α → Bool) (a : α) : List α → List α
  | [] => [a]
  | b :: l => if le a b then a :: b :: l else b :: insertSorted le a l

/-- Insertion sort.  `Vec::sort` in the source is a stable sort; since the
sorted elements here are strings respectively numbers, equal elements are
indistinguishable and every sort whose comparison is total and transitive
produces the same list, so this embedding is observationally identical. -/
def sortBy {α : Type} (le : α → α → Bool) : List α → List α
  | [] => []
  | a :: l => insertSorted le a (sortBy le l)

/-- Lexicographic order on lists of characters; `lexLe a.data b.data` agrees
with the byte-lexicographic `Ord` on Rust string slices (UTF-8 byte order
coincides with code-point order). -/
def lexLe : List Char → List Char → Bool
  | [], _ => true
  | _ :: _, [] => false
  | a :: as, b :: bs => if a = b then lexLe as bs else decide (a < b)

/-- The string order used by `short_names.sort()` in `add_event`. -/
def strLe (a b : String) : Bool := lexLe a.data b.data

/-- The numeric order used by `event.tag_ids.sort()` in `add_tags_for_event`. -/
def natLe (a b : Nat) : Bool := decide (a ≤ b)

/-- `Tag` from the source: long and short name. -/
structure Tag where
  long_name : String
  short_name : String
deriving DecidableEq, Repr

/-- `Event` from the source: description plus list of tag ids. -/
structure Event where
  description : String
  tag_ids : List Nat
deriving DecidableEq, Repr

/-- `EventDb` from the source: the tag registry and the timestamped events. -/
structure EventDb where
  tags : List (Nat × Tag)
  events : List (Int × Event)
deriving DecidableEq, Repr

/-- `ErrorKind` from the source. -/
inductive ErrorKind where
  | AlreadyExists
  | InvalidInput
deriving DecidableEq, Repr

/-- `EventDbError` from the source (the message text is irrelevant to the
claims and kept approximate). -/
structure EventDbError where
  error_kind : ErrorKind
  message : String
deriving DecidableEq, Repr

/-- `EventId` from the source: an absolute timestamp or a
reverse-chronological position. -/
inductive EventId where
  | Timestamp (t : Int)
  | Position (pos : Nat)
deriving DecidableEq, Repr

/-- `BTreeMap::get`: the event stored at timestamp `t`, if any. -/
def eventsGet (events : List (Int × Event)) (t : Int) : Option Event :=
  (events.find? (fun q => q.1 == t)).map Prod.snd

/-- `BTreeMap::insert`: ordered insert that replaces an existing entry at
the same timestamp. -/
def insertEvent : List (Int × Event) → Int → Event → List (Int × Event)
  | [], t, e => [(t, e)]
  | q :: l, t, e =>
    if t < q.1 then (t, e) :: q :: l
    else if t = q.1 then (t, e) :: l
    else q :: insertEvent l t e

/-- `EventId::to_timestamp` from the source. -/
def EventId.to_timestamp (id : EventId) (db : EventDb) : Option Int :=
  match id with
  | .Timestamp t =>
    match eventsGet db.events t with
    | some _ => some t
    | none => none
  | .Position pos => (db.events.reverse.get? pos).map Prod.fst

/-- `EventId::to_position` from the source. -/
def EventId.to_position (id : EventId) (db : EventDb) : Option Nat :=
  match id with
  | .Timestamp t => idxOfP (fun q => q.1 == t) db.events.reverse
  | .Position pos =>
    match (db.events.reverse.get? pos).map Prod.snd with
    | some _ => some pos
    | none => none

/-- `EventDb::get_event`.  The source indexes `self.events[&timestamp]`,
which panics when the key is absent; here the lookup is returned as is and
the safety theorem shows it never yields `none` when `to_timestamp`
succeeded. -/
def get_event (db : EventDb) (id : EventId) : Option Event :=
  match id.to_timestamp db with
  | some t => eventsGet db.events t
  | none => none

/-- `EventId::exists` from the source (named `existsInDb` because `exists`
is reserved). -/
def EventId.existsInDb (id : EventId) (db : EventDb) : Bool :=
  (get_event db id).isSome

/-- `EventDb::get_event_mut`.  The source calls
`self.events.get_mut(&timestamp).unwrap()`; the lookup that the `unwrap`
inspects is returned as is, and the safety theorem shows it never yields
`none` when `to_timestamp` succeeded. -/
def get_event_mut (db : EventDb) (id : EventId) : Option Event :=
  match id.to_timestamp db with
  | some t => eventsGet db.events t
  | none => none

/-- Two's-complement wrap of an unbounded integer into the `i64` range
`[-2^63, 2^63)`. -/
def wrapToI64 (x : Int) : Int :=
  (x + 9223372036854775808) % 18446744073709551616 - 9223372036854775808

/-- The `i64` subtraction `a - b` of the source: on overflow it wraps
(release builds; debug builds abort there, so no other value is ever
returned). -/
def i64Sub (a b : Int) : Int := wrapToI64 (a - b)

/-- `EventDb::get_event_duration` from the source.  The two `unwrap` calls
are modelled by the wildcard arm, shown unreachable by the safety
theorems; the timestamp difference is the wrapping `i64` subtraction. -/
def get_event_duration (db : EventDb) (id : EventId) : Option Int :=
  if !(id.existsInDb db) then none
  else
    match id.to_timestamp db, id.to_position db with
    | some ct, some cp =>
      match (EventId.Position (cp + 1)).to_timestamp db with
      | some pt => some (i64Sub ct pt)
      | none => some 0
    | _, _ => none

/-- `EventDb::tag_id_from_short_name`: first key whose tag carries the given
short name. -/
def tag_id_from_short_name (db : EventDb) (short_name : String) : Option Nat :=
  ((db.tags.filter (fun p => p.2.short_name == short_name)).map Prod.fst).head?

/-- The normalisation `short_names.sort(); short_names.dedup()` at the top
of `add_event`. -/
def normalizeShortNames (short_names : List String) : List String :=
  dedupConsec (sortBy strLe short_names)

/-- The resolution of (already normalised) short names to tag ids in
`add_event`: for each name, in order, all registry keys carrying it. -/
def resolveTagIds (db : EventDb) (sns : List String) : List Nat :=
  sns.flatMap (fun sn => (db.tags.filter (fun p => p.2.short_name == sn)).map Prod.fst)

/-- `EventDb::add_event` from the source: sort and dedup the short names,
reject unknown ones, then resolve them to ids (in short-name order) and
insert, overwriting any event at the same timestamp. -/
def add_event (db : EventDb) (time : Int) (description : String)
    (short_names : List String) : Except EventDbError EventDb :=
  let sns := normalizeShortNames short_names
  let existing_short_names := db.tags.map (fun p => p.2.short_name)
  let invalid_short_names := sns.filter (fun sn => !(existing_short_names.contains sn))
  if invalid_short_names.isEmpty then
    .ok ⟨db.tags, insertEvent db.events time ⟨description, resolveTagIds db sns⟩⟩
  else
    .error ⟨.InvalidInput, "Event contains invalid short names"⟩

/-- `EventDb::remove_event` from the source: resolve, then remove and
return the event at the resolved timestamp. -/
def remove_event (db : EventDb) (id : EventId) : Option Event × EventDb :=
  match id.to_timestamp db with
  | some t => (eventsGet db.events t, ⟨db.tags, db.events.eraseP (fun q => q.1 == t)⟩)
  | none => (none, db)

/-- The loop in `add_tags_for_event` / `remove_tags_for_event` that resolves
each short name, returning the first error. -/
def resolveShortNames (db : EventDb) : List String → Except String (List Nat)
  | [] => .ok []
  | sn :: rest =>
    match tag_id_from_short_name db sn with
    | some tid => (resolveShortNames db rest).map (fun tids => tid :: tids)
    | none => .error "Could not find a specified tag"

/-- In-place update of the event stored at timestamp `t` (the effect of
writing through `get_event_mut`). -/
def updateEventAt (events : List (Int × Event)) (t : Int) (f : Event → Event) :
    List (Int × Event) :=
  events.map (fun q => if q.1 == t then (q.1, f q.2) else q)

/-- The mutation performed by `add_tags_for_event` on the resolved event:
append the new ids, sort, dedup. -/
def addTagIds (e : Event) (tids : List Nat) : Event :=
  ⟨e.description, dedupConsec (sortBy natLe (e.tag_ids ++ tids))⟩

/-- `EventDb::add_tags_for_event` from the source. -/
def add_tags_for_event (db : EventDb) (id : EventId) (short_names : List String) :
    Except String EventDb :=
  match resolveShortNames db short_names with
  | .error msg => .error msg
  | .ok tids =>
    match id.to_timestamp db with
    | some t => .ok ⟨db.tags, updateEventAt db.events t (fun e => addTagIds e tids)⟩
    | none => .error "Could not find an event at that EventId"

/-- Removal of the first occurrence of `k`, mirroring
`position(...)` followed by `Vec::remove` in `remove_tags_for_event`. -/
def removeFirstOcc (l : List Nat) (k : Nat) : List Nat :=
  match idxOfP (fun i => i == k) l with
  | some i => l.eraseIdx i
  | none => l

/-- The mutation performed by `remove_tags_for_event` on the resolved
event. -/
def removeTagIds (e : Event) (tids : List Nat) : Event :=
  ⟨e.description, tids.foldl removeFirstOcc e.tag_ids⟩

/-- `EventDb::remove_tags_for_event` from the source. -/
def remove_tags_for_event (db : EventDb) (id : EventId) (short_names : List String) :
    Except String EventDb :=
  match resolveShortNames db short_names with
  | .error msg => .error msg
  | .ok tids =>
    match id.to_timestamp db with
    | some t => .ok ⟨db.tags, updateEventAt db.events t (fun e => removeTagIds e tids)⟩
    | none => .error "Could not find an event at that position"

/-- The id allocation scan `for number in 0.. { if !contains_key ... }` of
`add_tag`: try `start`, `start + 1`, ... while fuel lasts. -/
def scanFree (keys : List Nat) : Nat → Nat → Option Nat
  | _, 0 => none
  | start, fuel + 1 =>
    if start ∈ keys then scanFree keys (start + 1) fuel else some start

/-- The first free tag id.  The loop variable in the source is a `u16`, so
the scan covers `0..65536`; when the registry is not full the first free id
is found there. -/
def freshTagId (keys : List Nat) : Option Nat :=
  scanFree keys 0 65536

/-- `EventDb::add_tag` from the source.  When the registry holds all 65536
ids the source loop never returns normally (overflow); that practically
unreachable case is modelled as inserting nothing. -/
def add_tag (db : EventDb) (long_name short_name : String) :
    Except EventDbError EventDb :=
  if short_name = "" then
    .error ⟨.InvalidInput, "You need to have a short name for the tag"⟩
  else if long_name = "" then
    .error ⟨.InvalidInput, "You need to have a long name for the tag"⟩
  else if db.tags.any (fun p => p.2.short_name == short_name) then
    .error ⟨.AlreadyExists, "A tag with this short name already exists"⟩
  else
    match freshTagId (db.tags.map Prod.fst) with
    | some n => .ok ⟨db.tags ++ [(n, ⟨long_name, short_name⟩)], db.events⟩
    | none => .ok db

/-- The per-event cascade step of `remove_tag`: find the first index of the
removed id, cast it through `u16` (`i as u16 ... as usize`), and remove at
that index. -/
def stripFirstTag (k : Nat) (e : Event) : Event :=
  match idxOfP (fun i => i == k) e.tag_ids with
  | some i => ⟨e.description, e.tag_ids.eraseIdx (i % 65536)⟩
  | none => e

/-- `EventDb::remove_tag` from the source: remove the first registry entry
with the given short name, then strip that id from every event that
contains it. -/
def remove_tag (db : EventDb) (short_name : String) : Except EventDbError EventDb :=
  let key_to_remove := (db.tags.filter (fun p => p.2.short_name == short_name)).map Prod.fst
  match key_to_remove.head? with
  | none => .error ⟨.InvalidInput, "That short name does not exist"⟩
  | some k =>
    .ok ⟨db.tags.eraseP (fun p => p.1 == k),
         db.events.map (fun q => if q.2.tag_ids.contains k then (q.1, stripFirstTag k q.2) else q)⟩

/-- `EventDb::new`. -/
def emptyDb : EventDb := ⟨[], []⟩

/-- One call against the store, for stating invariants over arbitrary call
sequences. -/
inductive StoreOp where
  | addTag (long_name short_name : String)
  | removeTag (short_name : String)
  | addEvent (time : Int) (description : String) (short_names : List String)
  | removeEvent (id : EventId)
  | addTagsForEvent (id : EventId) (short_names : List String)
  | removeTagsForEvent (id : EventId) (short_names : List String)

/-- The store state after one call (on an error the source returned before
mutating, so the state is unchanged). -/
def applyOp (db : EventDb) : StoreOp → EventDb
  | .addTag ln sn =>
    match add_tag db ln sn with
    | .ok db2 => db2
    | .error _ => db
  | .removeTag sn =>
    match remove_tag db sn with
    | .ok db2 => db2
    | .error _ => db
  | .addEvent t d sns =>
    match add_event db t d sns with
    | .ok db2 => db2
    | .error _ => db
  | .removeEvent id => (remove_event db id).2
  | .addTagsForEvent id sns =>
    match add_tags_for_event db id sns with
    | .ok db2 => db2
    | .error _ => db
  | .removeTagsForEvent id sns =>
    match remove_tags_for_event db id sns with
    | .ok db2 => db2
    | .error _ => db

/-- Referential integrity: every tag id referenced by an event is a key of
the registry. -/
abbrev RefInt (db : EventDb) : Prop :=
  ∀ q ∈ db.events, ∀ k ∈ q.2.tag_ids, k ∈ db.tags.map Prod.fst

/-- Full well-formedness of a store, established for every state reachable
from the empty store. -/
structure WF (db : EventDb) : Prop where
  keysNodup : (db.tags.map Prod.fst).Nodup
  shortsNodup : (db.tags.map (fun p => p.2.short_name)).Nodup
  idsBound : ∀ p ∈ db.tags, p.1 < 65536
  eventsSorted : db.events.Pairwise (fun a b => a.1 < b.1)
  eventsNodup : ∀ q ∈ db.events, q.2.tag_ids.Nodup
  refInt : RefInt db

/-! ### Lemmas about the list helpers -/

theorem idxOfP_get? {α : Type} {p : α → Bool} :
    ∀ {l : List α} {i : Nat}, idxOfP p l = some i →
      ∃ x, l.get? i = some x ∧ p x = true := by
  intro l
  induction l with
  | nil => intro i h; simp [idxOfP] at h
  | cons a l ih =>
    intro i h
    by_cases hp : p a
    · simp [idxOfP, hp] at h
      subst h
      exact ⟨a, rfl, hp⟩
    · simp [idxOfP, hp] at h
      obtain ⟨j, hj, hji⟩ := h
      obtain ⟨x, hx, hpx⟩ := ih hj
      exact ⟨x, by simpa [← hji] using hx, hpx⟩

theorem idxOfP_isSome_of_mem {α : Type} {p : α → Bool} {x : α} :
    ∀ {l : List α}, x ∈ l → p x = true → (idxOfP p l).isSome := by
  intro l
  induction l with
  | nil => intro h; simp at h
  | cons a l ih =>
    intro hmem hpx
    by_cases hp : p a
    · simp [idxOfP, hp]
    · rcases List.mem_cons.mp hmem with rfl | hmem2
      · exact absurd hpx hp
      · have := ih hmem2 hpx
        simp [idxOfP, hp, Option.isSome_map]
        exact this

theorem idxOfP_split {α : Type} {p : α → Bool} :
    ∀ {l : List α} {i : Nat}, idxOfP p l = some i →
      ∃ x l1 l2, l = l1 ++ x :: l2 ∧ l1.length = i ∧ p x = true ∧
        ∀ y ∈ l1, p y = false := by
  intro l
  induction l with
  | nil => intro i h; simp [idxOfP] at h
  | cons a l ih =>
    intro i h
    by_cases hp : p a
    · simp [idxOfP, hp] at h
      subst h
      exact ⟨a, [], l, rfl, rfl, hp, by simp⟩
    · simp [idxOfP, hp] at h
      obtain ⟨j, hj, hji⟩ := h
      obtain ⟨x, l1, l2, hl, hlen, hpx, hall⟩ := ih hj
      refine ⟨x, a :: l1, l2, by simp [hl], by simp [hlen, hji], hpx, ?_⟩
      intro y hy
      rcases List.mem_cons.mp hy with rfl | hy2
      · simpa using hp
      · exact hall y hy2

theorem eraseIdx_append_cons {α : Type} :
    ∀ (l1 : List α) (x : α) (l2 : List α),
      (l1 ++ x :: l2).eraseIdx l1.length = l1 ++ l2 := by
  intro l1
  induction l1 with
  | nil => intro x l2; rfl
  | cons a l1 ih => intro x l2; simp [List.eraseIdx, ih]

theorem idxOfP_lt_length {α : Type} {p : α → Bool} {l : List α} {i : Nat}
    (h : idxOfP p l = some i) : i < l.length := by
  obtain ⟨x, hx, _⟩ := idxOfP_get? h
  exact (List.get?_eq_some.mp hx).1

theorem mem_dedupConsecAux {α : Type} [DecidableEq α] {x a : α} :
    ∀ {l : List α}, x ∈ dedupConsecAux a l ↔ x = a ∨ x ∈ l := by
  intro l
  induction l generalizing a with
  | nil => simp [dedupConsecAux]
  | cons b l ih =>
    by_cases hab : a = b
    · subst hab
      simp [dedupConsecAux, ih]
    · simp [dedupConsecAux, hab, ih]

theorem mem_dedupConsec {α : Type} [DecidableEq α] {x : α} :
    ∀ {l : List α}, x ∈ dedupConsec l ↔ x ∈ l := by
  intro l
  cases l with
  | nil => simp [dedupConsec]
  | cons a l => simp [dedupConsec, mem_dedupConsecAux]

theorem nodup_dedupConsecAux {α : Type} [DecidableEq α] {le : α → α → Bool}
    (hanti : ∀ x y, le x y = true → le y x = true → x = y) :
    ∀ {l : List α} {a : α}, (a :: l).Pairwise (fun x y => le x y = true) →
      (dedupConsecAux a l).Nodup := by
  intro l
  induction l with
  | nil => intro a _; simp [dedupConsecAux]
  | cons b l ih =>
    intro a hpw
    rw [List.pairwise_cons] at hpw
    obtain ⟨hhead, htail⟩ := hpw
    by_cases hab : a = b
    · subst hab
      simp only [dedupConsecAux, if_pos rfl]
      apply ih
      rw [List.pairwise_cons] at htail ⊢
      exact ⟨htail.1, htail.2⟩
    · simp only [dedupConsecAux, if_neg hab]
      rw [List.nodup_cons]
      constructor
      · intro hmem
        rcases mem_dedupConsecAux.mp hmem with rfl | hmem2
        · exact hab rfl
        · have h1 : le a b = true := hhead b (by simp)
          have h2 : le b a = true :=
            (List.pairwise_cons.mp htail).1 a hmem2
          exact hab (hanti a b h1 h2)
      · exact ih htail

theorem nodup_dedupConsec {α : Type} [DecidableEq α] {le : α → α → Bool}
    (hanti : ∀ x y, le x y = true → le y x = true → x = y)
    {l : List α} (hs : l.Pairwise (fun x y => le x y = true)) :
    (dedupConsec l).Nodup := by
  cases l with
  | nil => simp [dedupConsec]
  | cons a l => exact nodup_dedupConsecAux hanti hs

theorem insertSorted_perm {α : Type} (le : α → α → Bool) (a : α) :
    ∀ (l : List α), (insertSorted le a l).Perm (a :: l) := by
  intro l
  induction l with
  | nil => simp [insertSorted]
  | cons b l ih =>
    by_cases h : le a b
    · simp [insertSorted, h]
    · simp only [insertSorted, if_neg h]
      exact ((ih.cons b).trans (List.Perm.swap a b l))

theorem sortBy_perm {α : Type} (le : α → α → Bool) :
    ∀ (l : List α), (sortBy le l).Perm l := by
  intro l
  induction l with
  | nil => simp [sortBy]
  | cons a l ih =>
    exact (insertSorted_perm le a (sortBy le l)).trans (ih.cons a)

theorem insertSorted_pairwise {α : Type} {le : α → α → Bool}
    (htot : ∀ x y, le x y = true ∨ le y x = true)
    (htrans : ∀ x y z, le x y = true → le y z = true → le x z = true)
    {a : α} : ∀ {l : List α}, l.Pairwise (fun x y => le x y = true) →
      (insertSorted le a l).Pairwise (fun x y => le x y = true) := by
  intro l
  induction l with
  | nil => intro _; simp [insertSorted]
  | cons b l ih =>
    intro hpw
    rw [List.pairwise_cons] at hpw
    obtain ⟨hhead, htail⟩ := hpw
    by_cases h : le a b
    · simp only [insertSorted, if_pos h]
      rw [List.pairwise_cons]
      refine ⟨?_, List.pairwise_cons.mpr ⟨hhead, htail⟩⟩
      intro y hy
      rcases List.mem_cons.mp hy with rfl | hy2
      · exact h
      · exact htrans a b y h (hhead y hy2)
    · simp only [insertSorted, if_neg h]
      rw [List.pairwise_cons]
      constructor
      · intro y hy
        have hy3 := (insertSorted_perm le a l).mem_iff.mp hy
        rcases List.mem_cons.mp hy3 with rfl | hy2
        · rcases htot b y with hby | hyb
          · exact hby
          · exact absurd hyb (by simpa using h)
        · exact hhead y hy2
      · exact ih htail

theorem sortBy_pairwise {α : Type} {le : α → α → Bool}
    (htot : ∀ x y, le x y = true ∨ le y x = true)
    (htrans : ∀ x y z, le x y = true → le y z = true → le x z = true) :
    ∀ (l : List α), (sortBy le l).Pairwise (fun x y => le x y = true) := by
  intro l
  induction l with
  | nil => simp [sortBy]
  | cons a l ih => exact insertSorted_pairwise htot htrans ih

theorem natLe_total : ∀ x y, natLe x y = true ∨ natLe y x = true := by
  intro x y
  simp [natLe]
  omega

theorem natLe_trans : ∀ x y z, natLe x y = true → natLe y z = true → natLe x z = true := by
  intro x y z
  simp [natLe]
  omega

theorem natLe_antisymm : ∀ x y, natLe x y = true → natLe y x = true → x = y := by
  intro x y
  simp [natLe]
  omega

theorem lexLe_total : ∀ as bs, lexLe as bs = true ∨ lexLe bs as = true := by
  intro as
  induction as with
  | nil => intro bs; left; cases bs <;> rfl
  | cons a as ih =>
    intro bs
    cases bs with
    | nil => right; rfl
    | cons b bs =>
      by_cases hab : a = b
      · subst hab
        simpa [lexLe] using ih bs
      · rcases lt_or_gt_of_ne hab with hlt | hgt
        · left; simp [lexLe, hab, hlt]
        · right; simp [lexLe, Ne.symm hab, hgt]

theorem lexLe_trans :
    ∀ as bs cs, lexLe as bs = true → lexLe bs cs = true → lexLe as cs = true := by
  intro as
  induction as with
  | nil => intro bs cs _ _; cases cs <;> rfl
  | cons a as ih =>
    intro bs cs h1 h2
    cases bs with
    | nil => simp [lexLe] at h1
    | cons b bs =>
      cases cs with
      | nil => simp [lexLe] at h2
      | cons c cs =>
        by_cases hab : a = b <;> by_cases hbc : b = c
        · subst hab; subst hbc
          simp [lexLe] at h1 h2 ⊢
          exact ih bs cs h1 h2
        · subst hab
          simp [lexLe, hbc] at h2
          simp [lexLe, hbc, h2]
        · subst hbc
          simp [lexLe, hab] at h1
          simp [lexLe, hab, h1]
        · simp [lexLe, hab] at h1
          simp [lexLe, hbc] at h2
          have hac : a < c := lt_trans h1 h2
          simp [lexLe, ne_of_lt hac, hac]

theorem lexLe_antisymm :
    ∀ as bs, lexLe as bs = true → lexLe bs as = true → as = bs := by
  intro as
  induction as with
  | nil =>
    intro bs _ h2
    cases bs with
    | nil => rfl
    | cons b bs => simp [lexLe] at h2
  | cons a as ih =>
    intro bs h1 h2
    cases bs with
    | nil => simp [lexLe] at h1
    | cons b bs =>
      by_cases hab : a = b
      · subst hab
        simp [lexLe] at h1 h2
        exact congrArg (a :: ·) (ih bs h1 h2)
      · simp [lexLe, hab] at h1
        simp [lexLe, Ne.symm hab] at h2
        exact absurd h2 (not_lt_of_gt h1)

theorem strLe_total : ∀ x y, strLe x y = true ∨ strLe y x = true := by
  intro x y
  exact lexLe_total x.data y.data

theorem strLe_trans : ∀ x y z, strLe x y = true → strLe y z = true → strLe x z = true := by
  intro x y z
  exact lexLe_trans x.data y.data z.data

theorem strLe_antisymm : ∀ x y, strLe x y = true → strLe y x = true → x = y := by
  intro x y h1 h2
  exact String.ext (lexLe_antisymm x.data y.data h1 h2)

theorem scanFree_spec {keys : List Nat} :
    ∀ {fuel start n : Nat}, scanFree keys start fuel = some n →
      n ∉ keys ∧ start ≤ n ∧ n < start + fuel ∧
        ∀ m, start ≤ m → m < n → m ∈ keys := by
  intro fuel
  induction fuel with
  | zero => intro start n h; simp [scanFree] at h
  | succ fuel ih =>
    intro start n h
    by_cases hs : start ∈ keys
    · simp only [scanFree, if_pos hs] at h
      obtain ⟨hn, hle, hlt, hall⟩ := ih h
      refine ⟨hn, by omega, by omega, ?_⟩
      intro m hm1 hm2
      rcases Nat.eq_or_lt_of_le hm1 with rfl | hm3
      · exact hs
      · exact hall m hm3 hm2
    · simp only [scanFree, if_neg hs] at h
      obtain rfl := Option.some_injective _ h.symm
      exact ⟨hs, le_refl _, by omega, by omega⟩

theorem scanFree_isSome {keys : List Nat} :
    ∀ {fuel start : Nat}, (∃ n, start ≤ n ∧ n < start + fuel ∧ n ∉ keys) →
      (scanFree keys start fuel).isSome := by
  intro fuel
  induction fuel with
  | zero => intro start h; omega
  | succ fuel ih =>
    intro start h
    obtain ⟨n, hle, hlt, hn⟩ := h
    by_cases hs : start ∈ keys
    · simp only [scanFree, if_pos hs]
      apply ih
      have hne : n ≠ start := fun he => hn (he ▸ hs)
      exact ⟨n, by omega, by omega, hn⟩
    · simp [scanFree, if_neg hs]

/-- The allocated id is the least id not in use. -/
theorem freshTagId_spec {keys : List Nat} {n : Nat}
    (h : freshTagId keys = some n) :
    n ∉ keys ∧ n < 65536 ∧ ∀ m < n, m ∈ keys := by
  obtain ⟨hn, _, hlt, hall⟩ := @scanFree_spec keys _ _ _ h
  exact ⟨hn, by omega, fun m hm => hall m (Nat.zero_le m) hm⟩

/-- When the registry is not full, the allocation scan succeeds. -/
theorem freshTagId_isSome {keys : List Nat}
    (hlen : keys.length < 65536) : (freshTagId keys).isSome := by
  apply scanFree_isSome
  by_contra hcon
  push_neg at hcon
  have hsub : Finset.range 65536 ⊆ keys.toFinset := by
    intro n hn
    rw [Finset.mem_range] at hn
    rw [List.mem_toFinset]
    exact hcon n (Nat.zero_le n) (by omega)
  have h1 := Finset.card_le_card hsub
  have h2 := List.toFinset_card_le keys
  rw [Finset.card_range] at h1
  omega

/-! ### Lemmas about the event map -/

/-- Ascending key order of the stored events. -/
abbrev EventsSorted (events : List (Int × Event)) : Prop :=
  events.Pairwise (fun a b => a.1 < b.1)

theorem eventsGet_mem {events : List (Int × Event)} {t : Int} {e : Event}
    (h : eventsGet events t = some e) : (t, e) ∈ events := by
  unfold eventsGet at h
  obtain ⟨q, hq, hmap⟩ := Option.map_eq_some'.mp h
  have hkey : q.1 = t := by simpa using List.find?_some hq
  have hmem := List.mem_of_find?_eq_some hq
  have : q = (t, e) := by
    cases q
    simp_all
  rwa [this] at hmem

theorem eventsGet_isSome_of_mem {events : List (Int × Event)} {t : Int} {e : Event}
    (h : (t, e) ∈ events) : (eventsGet events t).isSome := by
  have hfind : (List.find? (fun q => q.1 == t) events).isSome :=
    List.find?_isSome.mpr ⟨(t, e), h, by simp⟩
  obtain ⟨q, hq⟩ := Option.isSome_iff_exists.mp hfind
  simp [eventsGet, hq]

theorem eventsGet_eq_none_iff {events : List (Int × Event)} {t : Int} :
    eventsGet events t = none ↔ ∀ q ∈ events, q.1 ≠ t := by
  unfold eventsGet
  rw [Option.map_eq_none', List.find?_eq_none]
  constructor
  · intro h q hq
    have := h q hq
    simpa using this
  · intro h q hq
    simpa using h q hq

theorem pairwise_get?_lt {R : List (Int × Event)}
    (hdesc : R.Pairwise (fun a b => b.1 < a.1)) {i j : Nat}
    {x y : Int × Event} (hx : R.get? i = some x) (hy : R.get? j = some y)
    (hij : i < j) : y.1 < x.1 := by
  obtain ⟨hi, hxi⟩ := List.get?_eq_some.mp hx
  obtain ⟨hj, hyj⟩ := List.get?_eq_some.mp hy
  have := List.pairwise_iff_get.mp hdesc ⟨i, hi⟩ ⟨j, hj⟩ hij
  rw [hxi, hyj] at this
  exact this

/-- If the reversed event list has the entry `(t, e)` at index `i`, and keys
strictly decrease along it, then `i` is the first (and only) index whose key
is `t`. -/
theorem idxOfP_of_get? {R : List (Int × Event)}
    (hdesc : R.Pairwise (fun a b => b.1 < a.1)) :
    ∀ {i : Nat} {t : Int} {e : Event}, R.get? i = some (t, e) →
      idxOfP (fun q => q.1 == t) R = some i := by
  induction R with
  | nil => intro i t e h; simp at h
  | cons x R ih =>
    intro i t e h
    cases i with
    | zero =>
      simp at h
      subst h
      simp [idxOfP]
    | succ j =>
      simp only [List.get?] at h
      have hmem : (t, e) ∈ R := by
        have := List.get?_eq_some.mp h
        obtain ⟨hj, hje⟩ := this
        exact hje ▸ List.get_mem R j hj
      have hx : t < x.1 := by
        have := (List.pairwise_cons.mp hdesc).1 (t, e) hmem
        simpa using this
      have hne : (x.1 == t) = false := by
        simp
        omega
      simp only [idxOfP, hne, Bool.false_eq_true, if_false]
      rw [ih (List.pairwise_cons.mp hdesc).2 h]
      rfl

/-- Whenever `to_timestamp` succeeds, `to_position` succeeds as well and
the reversed event list holds an entry with the resolved timestamp at the
resolved position.  (No well-formedness is required.) -/
theorem to_position_of_to_timestamp {db : EventDb} {id : EventId} {t : Int}
    (h : id.to_timestamp db = some t) :
    ∃ p e, id.to_position db = some p ∧ db.events.reverse.get? p = some (t, e) := by
  cases id with
  | Timestamp t0 =>
    have ht0 : t0 = t := by
      unfold EventId.to_timestamp at h
      cases hg : eventsGet db.events t0 <;> simp [hg] at h <;> omega
    subst ht0
    have hsome : ∃ e, eventsGet db.events t0 = some e := by
      unfold EventId.to_timestamp at h
      cases hg : eventsGet db.events t0 with
      | none => simp [hg] at h
      | some e => exact ⟨e, rfl⟩
    obtain ⟨e, he⟩ := hsome
    have hmem : (t0, e) ∈ db.events.reverse := List.mem_reverse.mpr (eventsGet_mem he)
    have hidx := idxOfP_isSome_of_mem (p := fun q => q.1 == t0) hmem (by simp)
    obtain ⟨i, hi⟩ := Option.isSome_iff_exists.mp hidx
    obtain ⟨x, hx, hpx⟩ := idxOfP_get? hi
    have hx1 : x.1 = t0 := by simpa using hpx
    refine ⟨i, x.2, ?_, ?_⟩
    · simpa [EventId.to_position] using hi
    · rw [hx]
      congr 1
      cases x
      simp_all
  | Position pos =>
    unfold EventId.to_timestamp at h
    obtain ⟨x, hx, hx1⟩ := Option.map_eq_some'.mp h
    have hx2 : db.events.reverse[pos]? = some x := by
      rw [← List.get?_eq_getElem?]
      exact hx
    refine ⟨pos, x.2, ?_, ?_⟩
    · simp [EventId.to_position, hx, hx2]
    · rw [hx]
      congr 1
      cases x
      simp_all

/-- Whenever `to_timestamp` returns a timestamp, the event map holds an
entry at that key: the direct map indexing in the source cannot panic. -/
theorem eventsGet_isSome_of_to_timestamp {db : EventDb} {id : EventId} {t : Int}
    (ht : id.to_timestamp db = some t) : (eventsGet db.events t).isSome := by
  cases id with
  | Timestamp t0 =>
    have ht0 : t0 = t ∧ (eventsGet db.events t0).isSome := by
      unfold EventId.to_timestamp at ht
      cases hg : eventsGet db.events t0 <;> simp [hg] at ht <;> simp [ht]
    rw [← ht0.1]
    exact ht0.2
  | Position pos =>
    unfold EventId.to_timestamp at ht
    obtain ⟨x, hx, hx1⟩ := Option.map_eq_some'.mp ht
    have hmem : x ∈ db.events := List.mem_reverse.mp (by
      have := List.get?_eq_some.mp hx
      obtain ⟨hp, hpe⟩ := this
      exact hpe ▸ List.get_mem _ pos hp)
    have : (t, x.2) ∈ db.events := by
      have hx' : x = (t, x.2) := by cases x; simp_all
      rwa [hx'] at hmem
    exact eventsGet_isSome_of_mem this

/-- `get_event` succeeds exactly when `to_timestamp` succeeds. -/
theorem get_event_isSome_iff {db : EventDb} {id : EventId} :
    (get_event db id).isSome ↔ (id.to_timestamp db).isSome := by
  constructor
  · intro h
    unfold get_event at h
    cases hts : id.to_timestamp db with
    | none => rw [hts] at h; simp at h
    | some t => simp
  · intro h
    obtain ⟨t, ht⟩ := Option.isSome_iff_exists.mp h
    unfold get_event
    rw [ht]
    exact eventsGet_isSome_of_to_timestamp ht

theorem mem_insertEvent {t : Int} {e : Event} :
    ∀ {l : List (Int × Event)} {x : Int × Event},
      x ∈ insertEvent l t e → x = (t, e) ∨ x ∈ l := by
  intro l
  induction l with
  | nil => intro x hx; simpa [insertEvent] using hx
  | cons q l ih =>
    intro x hx
    by_cases h1 : t < q.1
    · simp only [insertEvent, if_pos h1] at hx
      rcases List.mem_cons.mp hx with rfl | hx2
      · exact Or.inl rfl
      · exact Or.inr hx2
    · by_cases h2 : t = q.1
      · simp only [insertEvent, if_neg h1, if_pos h2] at hx
        rcases List.mem_cons.mp hx with rfl | hx2
        · exact Or.inl rfl
        · exact Or.inr (List.mem_cons_of_mem q hx2)
      · simp only [insertEvent, if_neg h1, if_neg h2] at hx
        rcases List.mem_cons.mp hx with rfl | hx2
        · exact Or.inr (List.mem_cons_self _ _)
        · rcases ih hx2 with h | h
          · exact Or.inl h
          · exact Or.inr (List.mem_cons_of_mem _ h)

theorem insertEvent_sorted {t : Int} {e : Event} :
    ∀ {l : List (Int × Event)}, EventsSorted l → EventsSorted (insertEvent l t e) := by
  intro l
  induction l with
  | nil => intro _; simp [insertEvent, EventsSorted]
  | cons q l ih =>
    intro hs
    unfold EventsSorted at hs
    rw [List.pairwise_cons] at hs
    obtain ⟨hhead, htail⟩ := hs
    by_cases h1 : t < q.1
    · simp only [EventsSorted, insertEvent, if_pos h1]
      rw [List.pairwise_cons]
      constructor
      · intro y hy
        rcases List.mem_cons.mp hy with rfl | hy2
        · exact h1
        · exact lt_trans h1 (hhead y hy2)
      · exact List.pairwise_cons.mpr ⟨hhead, htail⟩
    · by_cases h2 : t = q.1
      · simp only [EventsSorted, insertEvent, if_neg h1, if_pos h2]
        rw [List.pairwise_cons]
        exact ⟨fun y hy => h2 ▸ hhead y hy, htail⟩
      · simp only [EventsSorted, insertEvent, if_neg h1, if_neg h2]
        rw [List.pairwise_cons]
        constructor
        · intro y hy
          rcases mem_insertEvent hy with rfl | hy2
          · simp
            omega
          · exact hhead y hy2
        · exact ih htail

theorem eventsGet_insertEvent_self {t : Int} {e : Event} :
    ∀ {l : List (Int × Event)}, eventsGet (insertEvent l t e) t = some e := by
  intro l
  induction l with
  | nil => simp [insertEvent, eventsGet]
  | cons q l ih =>
    by_cases h1 : t < q.1
    · simp [insertEvent, if_pos h1, eventsGet]
    · by_cases h2 : t = q.1
      · simp [insertEvent, if_neg h1, if_pos h2, eventsGet]
      · have hne : (q.1 == t) = false := by simp; omega
        simp only [insertEvent, if_neg h1, if_neg h2]
        unfold eventsGet
        simp only [List.find?, hne]
        exact ih

theorem countP_key_eq_one {t : Int} :
    ∀ {l : List (Int × Event)}, (l.map Prod.fst).Nodup →
      (∃ e, (t, e) ∈ l) → (l.countP (fun q => q.1 == t)) = 1 := by
  intro l
  induction l with
  | nil => intro _ h; simp at h
  | cons q l ih =>
    intro hnodup hmem
    rw [List.map_cons, List.nodup_cons] at hnodup
    obtain ⟨hq, hl⟩ := hnodup
    by_cases hqt : q.1 = t
    · have hzero : l.countP (fun q => q.1 == t) = 0 := by
        rw [List.countP_eq_zero]
        intro a ha
        simp
        intro hat
        exact hq (by rw [hqt, ← hat]; exact List.mem_map_of_mem Prod.fst ha)
      rw [List.countP_cons]
      simp [hqt, hzero]
    · obtain ⟨e, he⟩ := hmem
      rcases List.mem_cons.mp he with heq | hmem2
      · exact absurd (congrArg Prod.fst heq).symm hqt
      · rw [List.countP_cons]
        simp [hqt]
        exact ih hl ⟨e, hmem2⟩

/-- Sorted event lists have pairwise distinct keys. -/
theorem sorted_keys_nodup {l : List (Int × Event)} (hs : EventsSorted l) :
    (l.map Prod.fst).Nodup := by
  unfold EventsSorted at hs
  have := List.pairwise_map.mpr (hs.imp (fun h => ne_of_lt h))
  exact this

/-! ### Shape lemmas for the mutating operations -/

theorem add_event_ok {db db2 : EventDb} {t : Int} {d : String} {sns : List String}
    (h : add_event db t d sns = .ok db2) :
    db2.tags = db.tags ∧
    db2.events =
      insertEvent db.events t ⟨d, resolveTagIds db (normalizeShortNames sns)⟩ := by
  unfold add_event at h
  by_cases hinv : ((normalizeShortNames sns).filter
      (fun sn => !((db.tags.map (fun p => p.2.short_name)).contains sn))).isEmpty
  · rw [if_pos hinv] at h
    have := Option.some_injective _ (congrArg Except.toOption h)
    rw [← this]
    exact ⟨rfl, rfl⟩
  · rw [if_neg hinv] at h
    simp at h

theorem tag_id_from_short_name_eq_none_iff {db : EventDb} {sn : String} :
    tag_id_from_short_name db sn = none ↔
      sn ∉ db.tags.map (fun p => p.2.short_name) := by
  unfold tag_id_from_short_name
  rw [List.head?_eq_none_iff, List.map_eq_nil_iff, List.filter_eq_nil_iff]
  constructor
  · intro h hmem
    obtain ⟨p, hp, hps⟩ := List.mem_map.mp hmem
    have h2 := h p hp
    simp at h2
    exact h2 hps
  · intro h p hp
    simp
    intro hps
    exact h (List.mem_map.mpr ⟨p, hp, hps⟩)

theorem tag_id_from_short_name_mem {db : EventDb} {sn : String} {k : Nat}
    (h : tag_id_from_short_name db sn = some k) :
    k ∈ db.tags.map Prod.fst ∧ ∃ tg, (k, tg) ∈ db.tags ∧ tg.short_name = sn := by
  unfold tag_id_from_short_name at h
  have hk : k ∈ (db.tags.filter (fun p => p.2.short_name == sn)).map Prod.fst := by
    cases hh : ((db.tags.filter (fun p => p.2.short_name == sn)).map Prod.fst) with
    | nil => rw [hh] at h; simp at h
    | cons a l =>
      rw [hh] at h
      simp at h
      rw [h]
      exact List.mem_cons_self _ _
  obtain ⟨p, hp, hpk⟩ := List.mem_map.mp hk
  obtain ⟨hpmem, hpsn⟩ := List.mem_filter.mp hp
  have hpsn2 : p.2.short_name = sn := by simpa using hpsn
  constructor
  · exact List.mem_map.mpr ⟨p, hpmem, hpk⟩
  · refine ⟨p.2, ?_, hpsn2⟩
    have : p = (k, p.2) := by
      cases p
      simp_all
    rwa [this] at hpmem

theorem resolveShortNames_error {db : EventDb} :
    ∀ {sns : List String}, (∃ sn ∈ sns, tag_id_from_short_name db sn = none) →
      resolveShortNames db sns = .error "Could not find a specified tag" := by
  intro sns
  induction sns with
  | nil => intro h; simp at h
  | cons a l ih =>
    intro h
    cases ha : tag_id_from_short_name db a with
    | none => simp [resolveShortNames, ha]
    | some k =>
      obtain ⟨sn, hmem, hnone⟩ := h
      rcases List.mem_cons.mp hmem with rfl | hmem2
      · rw [ha] at hnone
        simp at hnone
      · have hrec := ih ⟨sn, hmem2, hnone⟩
        simp [resolveShortNames, ha, hrec, Except.map]

theorem resolveShortNames_ok_mem {db : EventDb} :
    ∀ {sns : List String} {tids : List Nat},
      resolveShortNames db sns = .ok tids →
      ∀ k ∈ tids, k ∈ db.tags.map Prod.fst := by
  intro sns
  induction sns with
  | nil =>
    intro tids h k hk
    simp [resolveShortNames] at h
    subst h
    simp at hk
  | cons a l ih =>
    intro tids h k hk
    cases ha : tag_id_from_short_name db a with
    | none => rw [resolveShortNames, ha] at h; simp at h
    | some tid =>
      rw [resolveShortNames, ha] at h
      cases hrec : resolveShortNames db l with
      | error m => rw [hrec] at h; simp [Except.map] at h
      | ok tids2 =>
        rw [hrec] at h
        simp [Except.map] at h
        rw [← h] at hk
        rcases List.mem_cons.mp hk with rfl | hk2
        · exact (tag_id_from_short_name_mem ha).1
        · exact ih hrec k hk2

/-! ### Sublist and removal lemmas -/

theorem dedupConsecAux_sublist {α : Type} [DecidableEq α] (a : α) :
    ∀ (l : List α), (dedupConsecAux a l).Sublist (a :: l) := by
  intro l
  induction l generalizing a with
  | nil => simp [dedupConsecAux]
  | cons b l ih =>
    by_cases hab : a = b
    · subst hab
      simp only [dedupConsecAux, if_pos rfl]
      exact (ih a).trans (List.Sublist.cons₂ a (List.sublist_cons_self a l))
    · simp only [dedupConsecAux, if_neg hab]
      exact List.Sublist.cons₂ a (ih b)

theorem dedupConsec_sublist {α : Type} [DecidableEq α] :
    ∀ (l : List α), (dedupConsec l).Sublist l := by
  intro l
  cases l with
  | nil => simp [dedupConsec]
  | cons a l => exact dedupConsecAux_sublist a l

theorem removeFirstOcc_sublist (l : List Nat) (k : Nat) :
    (removeFirstOcc l k).Sublist l := by
  unfold removeFirstOcc
  cases h : idxOfP (fun i => i == k) l with
  | none => exact List.Sublist.refl l
  | some i => exact List.eraseIdx_sublist l i

theorem foldl_removeFirstOcc_sublist :
    ∀ (tids : List Nat) (l : List Nat), (tids.foldl removeFirstOcc l).Sublist l := by
  intro tids
  induction tids with
  | nil => intro l; exact List.Sublist.refl l
  | cons a t ih =>
    intro l
    rw [List.foldl_cons]
    exact (ih (removeFirstOcc l a)).trans (removeFirstOcc_sublist l a)

/-- A list without duplicates whose members are all below `n` has at most
`n` members. -/
theorem nodup_length_le {l : List Nat} {n : Nat} (hnodup : l.Nodup)
    (hbound : ∀ x ∈ l, x < n) : l.length ≤ n := by
  have hsub : l.toFinset ⊆ Finset.range n := by
    intro x hx
    rw [List.mem_toFinset] at hx
    exact Finset.mem_range.mpr (hbound x hx)
  have := Finset.card_le_card hsub
  rw [Finset.card_range, List.toFinset_card_of_nodup hnodup] at this
  exact this

/-- Removing the first occurrence of `k` from a duplicate-free list of
`u16` values removes `k` entirely and keeps everything else; the `u16`
index cast in the source is the identity there. -/
theorem eraseFirst_nodup {l : List Nat} {k : Nat} {i : Nat}
    (hnodup : l.Nodup) (hbound : ∀ x ∈ l, x < 65536)
    (hidx : idxOfP (fun x => x == k) l = some i) :
    i % 65536 = i ∧ k ∉ l.eraseIdx i ∧
      ∀ x ∈ l, x ≠ k → x ∈ l.eraseIdx i := by
  obtain ⟨x, l1, l2, hsplit, hlen, hpx, hall⟩ := idxOfP_split hidx
  have hxk : x = k := by simpa using hpx
  subst hxk
  have hilt : i < l.length := idxOfP_lt_length hidx
  have hle : l.length ≤ 65536 := nodup_length_le hnodup hbound
  have hmod : i % 65536 = i := Nat.mod_eq_of_lt (by omega)
  have herase : l.eraseIdx i = l1 ++ l2 := by
    rw [hsplit, ← hlen]
    exact eraseIdx_append_cons l1 x l2
  rw [hsplit] at hnodup
  rw [List.nodup_middle, List.nodup_cons] at hnodup
  refine ⟨hmod, ?_, ?_⟩
  · rw [herase]
    exact hnodup.1
  · intro y hy hyk
    rw [herase]
    rw [hsplit] at hy
    rcases List.mem_append.mp hy with hy1 | hy2
    · exact List.mem_append.mpr (Or.inl hy1)
    · rcases List.mem_cons.mp hy2 with rfl | hy3
      · exact absurd rfl hyk
      · exact List.mem_append.mpr (Or.inr hy3)

/-- With pairwise distinct short names, two registry entries holding the
same short name are the same entry. -/
theorem unique_short {db : EventDb}
    (hshorts : (db.tags.map (fun p => p.2.short_name)).Nodup)
    {p1 p2 : Nat × Tag} (h1 : p1 ∈ db.tags) (h2 : p2 ∈ db.tags)
    (hsn : p1.2.short_name = p2.2.short_name) : p1 = p2 :=
  List.inj_on_of_nodup_map hshorts h1 h2 hsn

/-- Erasing the entry with key `k` from a registry with pairwise distinct
keys: `k` is gone, every other entry survives. -/
theorem eraseP_key_lemma {db : EventDb} {k : Nat}
    (hkeys : (db.tags.map Prod.fst).Nodup)
    (hmem : ∃ tg, (k, tg) ∈ db.tags) :
    (∀ p ∈ db.tags.eraseP (fun p => p.1 == k), p.1 ≠ k) ∧
    (∀ p ∈ db.tags, p.1 ≠ k → p ∈ db.tags.eraseP (fun p => p.1 == k)) := by
  obtain ⟨tg, htg⟩ := hmem
  obtain ⟨a, l1, l2, hl1, hpa, hsplit, herase⟩ :=
    @List.exists_of_eraseP _ (fun p => p.1 == k) db.tags (k, tg) htg (by simp)
  have hak : a.1 = k := by simpa using hpa
  have hknodup : ((l1 ++ a :: l2).map Prod.fst).Nodup := by
    rw [← hsplit]
    exact hkeys
  rw [List.map_append, List.map_cons] at hknodup
  have hmid := (@List.nodup_middle _ a.1 (l1.map Prod.fst) (l2.map Prod.fst)).mp
    (by simpa using hknodup)
  rw [List.nodup_cons] at hmid
  constructor
  · intro p hp hpk
    rw [herase] at hp
    have : p.1 ∈ l1.map Prod.fst ++ l2.map Prod.fst := by
      rcases List.mem_append.mp hp with h | h
      · exact List.mem_append.mpr (Or.inl (List.mem_map_of_mem Prod.fst h))
      · exact List.mem_append.mpr (Or.inr (List.mem_map_of_mem Prod.fst h))
    rw [hpk, ← hak] at this
    exact hmid.1 (by simpa using this)
  · intro p hp hpk
    rw [herase]
    rw [hsplit] at hp
    rcases List.mem_append.mp hp with h | h
    · exact List.mem_append.mpr (Or.inl h)
    · rcases List.mem_cons.mp h with rfl | h2
      · exact absurd hak hpk
      · exact List.mem_append.mpr (Or.inr h2)

/-! ### Lemmas about tag-id resolution in add_event -/

theorem mem_resolveTagIds {db : EventDb} {sns : List String} {x : Nat}
    (h : x ∈ resolveTagIds db sns) : x ∈ db.tags.map Prod.fst := by
  unfold resolveTagIds at h
  obtain ⟨sn, _, hx⟩ := List.mem_flatMap.mp h
  obtain ⟨p, hp, hpx⟩ := List.mem_map.mp hx
  exact List.mem_map.mpr ⟨p, (List.mem_filter.mp hp).1, hpx⟩

theorem normalizeShortNames_nodup (sns : List String) :
    (normalizeShortNames sns).Nodup := by
  unfold normalizeShortNames
  exact nodup_dedupConsec strLe_antisymm (sortBy_pairwise strLe_total strLe_trans sns)

theorem resolveTagIds_nodup {db : EventDb}
    (hkeys : (db.tags.map Prod.fst).Nodup)
    (hshorts : (db.tags.map (fun p => p.2.short_name)).Nodup) :
    ∀ {sns : List String}, sns.Nodup → (resolveTagIds db sns).Nodup := by
  intro sns
  induction sns with
  | nil => intro _; simp [resolveTagIds]
  | cons a l ih =>
    intro hnodup
    rw [List.nodup_cons] at hnodup
    have hstep : resolveTagIds db (a :: l) =
        ((db.tags.filter (fun p => p.2.short_name == a)).map Prod.fst) ++
          resolveTagIds db l := by
      simp [resolveTagIds]
    rw [hstep, List.nodup_append]
    refine ⟨?_, ih hnodup.2, ?_⟩
    · exact ((List.filter_sublist db.tags).map Prod.fst).nodup hkeys
    · rw [List.disjoint_left]
      intro x hx1 hx2
      obtain ⟨p1, hp1, hp1x⟩ := List.mem_map.mp hx1
      obtain ⟨hp1mem, hp1sn⟩ := List.mem_filter.mp hp1
      obtain ⟨sn2, hsn2, hx2b⟩ := List.mem_flatMap.mp hx2
      obtain ⟨p2, hp2, hp2x⟩ := List.mem_map.mp hx2b
      obtain ⟨hp2mem, hp2sn⟩ := List.mem_filter.mp hp2
      have hp12 : p1 = p2 :=
        List.inj_on_of_nodup_map hkeys hp1mem hp2mem (by rw [hp1x, hp2x])
      have ha2 : a = sn2 := by
        have e1 : p1.2.short_name = a := by simpa using hp1sn
        have e2 : p2.2.short_name = sn2 := by simpa using hp2sn
        rw [← e1, hp12, e2]
      exact hnodup.1 (ha2 ▸ hsn2)

/-! ### Shape lemmas for the remaining operations -/

theorem add_tag_ok {db db2 : EventDb} {ln sn : String}
    (h : add_tag db ln sn = .ok db2) :
    db2 = db ∨
    ∃ n, freshTagId (db.tags.map Prod.fst) = some n ∧
      db2 = ⟨db.tags ++ [(n, ⟨ln, sn⟩)], db.events⟩ ∧
      ∀ p ∈ db.tags, p.2.short_name ≠ sn := by
  unfold add_tag at h
  by_cases hs : sn = ""
  · rw [if_pos hs] at h
    simp at h
  · rw [if_neg hs] at h
    by_cases hl : ln = ""
    · rw [if_pos hl] at h
      simp at h
    · rw [if_neg hl] at h
      by_cases hany : db.tags.any (fun p => p.2.short_name == sn) = true
      · rw [if_pos hany] at h
        simp at h
      · rw [if_neg hany] at h
        have hno : ∀ p ∈ db.tags, p.2.short_name ≠ sn := by
          intro p hp he
          exact hany (List.any_eq_true.mpr ⟨p, hp, by simp [he]⟩)
        cases hf : freshTagId (db.tags.map Prod.fst) with
        | none =>
          rw [hf] at h
          left
          exact (Option.some_injective _ (congrArg Except.toOption h)).symm
        | some n =>
          rw [hf] at h
          right
          exact ⟨n, rfl, (Option.some_injective _ (congrArg Except.toOption h)).symm,
            hno⟩

theorem remove_tag_ok {db db2 : EventDb} {sn : String}
    (h : remove_tag db sn = .ok db2) :
    ∃ k tg, (k, tg) ∈ db.tags ∧ tg.short_name = sn ∧
      db2 = ⟨db.tags.eraseP (fun p => p.1 == k),
        db.events.map (fun q =>
          if q.2.tag_ids.contains k then (q.1, stripFirstTag k q.2) else q)⟩ := by
  have h2 : (match ((db.tags.filter (fun p => p.2.short_name == sn)).map
        Prod.fst).head? with
      | none => (Except.error ⟨.InvalidInput, "That short name does not exist"⟩ :
          Except EventDbError EventDb)
      | some k =>
        Except.ok ⟨db.tags.eraseP (fun p => p.1 == k),
          db.events.map (fun q =>
            if q.2.tag_ids.contains k then (q.1, stripFirstTag k q.2) else q)⟩) =
      Except.ok db2 := h
  clear h
  cases hh : ((db.tags.filter (fun p => p.2.short_name == sn)).map Prod.fst).head?
    with
  | none =>
    rw [hh] at h2
    simp at h2
  | some k =>
    rw [hh] at h2
    have hk : k ∈ (db.tags.filter (fun p => p.2.short_name == sn)).map Prod.fst := by
      cases hl : ((db.tags.filter (fun p => p.2.short_name == sn)).map Prod.fst) with
      | nil => rw [hl] at hh; simp at hh
      | cons a t =>
        rw [hl] at hh
        simp at hh
        rw [hh]
        exact List.mem_cons_self _ _
    obtain ⟨p, hp, hpk⟩ := List.mem_map.mp hk
    obtain ⟨hpmem, hpsn⟩ := List.mem_filter.mp hp
    refine ⟨k, p.2, ?_, by simpa using hpsn, ?_⟩
    · have : p = (k, p.2) := by cases p; simp_all
      rwa [this] at hpmem
    · exact (Option.some_injective _ (congrArg Except.toOption h2)).symm

theorem add_tags_for_event_ok {db db2 : EventDb} {id : EventId}
    {sns : List String} (h : add_tags_for_event db id sns = .ok db2) :
    ∃ tids t, resolveShortNames db sns = .ok tids ∧
      id.to_timestamp db = some t ∧
      db2 = ⟨db.tags, updateEventAt db.events t (fun e => addTagIds e tids)⟩ := by
  unfold add_tags_for_event at h
  cases hr : resolveShortNames db sns with
  | error m => rw [hr] at h; simp at h
  | ok tids =>
    rw [hr] at h
    cases hts : id.to_timestamp db with
    | none => rw [hts] at h; simp at h
    | some t =>
      rw [hts] at h
      exact ⟨tids, t, rfl, rfl,
        (Option.some_injective _ (congrArg Except.toOption h)).symm⟩

theorem remove_tags_for_event_ok {db db2 : EventDb} {id : EventId}
    {sns : List String} (h : remove_tags_for_event db id sns = .ok db2) :
    ∃ tids t, resolveShortNames db sns = .ok tids ∧
      id.to_timestamp db = some t ∧
      db2 = ⟨db.tags, updateEventAt db.events t (fun e => removeTagIds e tids)⟩ := by
  unfold remove_tags_for_event at h
  cases hr : resolveShortNames db sns with
  | error m => rw [hr] at h; simp at h
  | ok tids =>
    rw [hr] at h
    cases hts : id.to_timestamp db with
    | none => rw [hts] at h; simp at h
    | some t =>
      rw [hts] at h
      exact ⟨tids, t, rfl, rfl,
        (Option.some_injective _ (congrArg Except.toOption h)).symm⟩

theorem mem_updateEventAt {events : List (Int × Event)} {t : Int}
    {f : Event → Event} {q : Int × Event} (h : q ∈ updateEventAt events t f) :
    ∃ q0 ∈ events, q.1 = q0.1 ∧ (q.2 = q0.2 ∨ q.2 = f q0.2) := by
  unfold updateEventAt at h
  obtain ⟨q0, hq0, hmap⟩ := List.mem_map.mp h
  by_cases hk : (q0.1 == t) = true
  · rw [if_pos hk] at hmap
    exact ⟨q0, hq0, by rw [← hmap], Or.inr (by rw [← hmap])⟩
  · rw [if_neg (by simpa using hk)] at hmap
    exact ⟨q0, hq0, by rw [← hmap], Or.inl (by rw [← hmap])⟩

theorem updateEventAt_sorted {events : List (Int × Event)} {t : Int}
    {f : Event → Event} (hs : EventsSorted events) :
    EventsSorted (updateEventAt events t f) := by
  unfold updateEventAt
  apply List.pairwise_map.mpr
  apply hs.imp_of_mem
  intro a b _ _ hab
  by_cases ha : (a.1 == t) = true <;> by_cases hb : (b.1 == t) = true <;>
    simp [ha, hb] <;> exact hab

/-! ### Preservation of well-formedness by every operation -/

theorem map_fst_preserving_sorted {events : List (Int × Event)}
    {f : Int × Event → Int × Event} (hf : ∀ q, (f q).1 = q.1)
    (hs : EventsSorted events) : EventsSorted (events.map f) := by
  apply List.pairwise_map.mpr
  apply hs.imp_of_mem
  intro a b _ _ hab
  rw [hf a, hf b]
  exact hab

theorem WF_add_tag {db db2 : EventDb} {ln sn : String}
    (hwf : WF db) (h : add_tag db ln sn = .ok db2) : WF db2 := by
  rcases add_tag_ok h with rfl | ⟨n, hf, hdb2, hno⟩
  · exact hwf
  · obtain ⟨hfree, hlt, _⟩ := freshTagId_spec hf
    subst hdb2
    constructor
    · show ((db.tags ++ [(n, Tag.mk ln sn)]).map Prod.fst).Nodup
      rw [List.map_append, List.nodup_append]
      refine ⟨hwf.keysNodup, by simp, ?_⟩
      rw [List.disjoint_left]
      intro x hx1 hx2
      simp at hx2
      exact hfree (hx2 ▸ hx1)
    · show ((db.tags ++ [(n, Tag.mk ln sn)]).map (fun p => p.2.short_name)).Nodup
      rw [List.map_append, List.nodup_append]
      refine ⟨hwf.shortsNodup, by simp, ?_⟩
      rw [List.disjoint_left]
      intro x hx1 hx2
      simp at hx2
      obtain ⟨p, hp, hps⟩ := List.mem_map.mp hx1
      exact hno p hp (by rw [hps, hx2])
    · intro p hp
      rcases List.mem_append.mp hp with h1 | h2
      · exact hwf.idsBound p h1
      · simp at h2
        rw [h2]
        exact hlt
    · exact hwf.eventsSorted
    · exact hwf.eventsNodup
    · intro q hq x hx
      show x ∈ (db.tags ++ [(n, Tag.mk ln sn)]).map Prod.fst
      rw [List.map_append, List.mem_append]
      exact Or.inl (hwf.refInt q hq x hx)

theorem WF_remove_tag {db db2 : EventDb} {sn : String}
    (hwf : WF db) (h : remove_tag db sn = .ok db2) : WF db2 := by
  obtain ⟨k, tg, hmem, hsn, hdb2⟩ := remove_tag_ok h
  subst hdb2
  have hkeysub : ((db.tags.eraseP (fun p => p.1 == k)).map Prod.fst).Sublist
      (db.tags.map Prod.fst) := (List.eraseP_sublist db.tags).map Prod.fst
  obtain ⟨_, hsurvive⟩ := eraseP_key_lemma hwf.keysNodup ⟨tg, hmem⟩
  constructor
  · exact hkeysub.nodup hwf.keysNodup
  · exact ((List.eraseP_sublist db.tags).map
      (fun p => p.2.short_name)).nodup hwf.shortsNodup
  · intro p hp
    exact hwf.idsBound p ((List.eraseP_sublist db.tags).subset hp)
  · exact map_fst_preserving_sorted
      (fun q => by cases hif : q.2.tag_ids.contains k <;> simp [hif])
      hwf.eventsSorted
  · intro q hq
    obtain ⟨q0, hq0, hmap⟩ := List.mem_map.mp hq
    by_cases hc : q0.2.tag_ids.contains k = true
    · rw [if_pos hc] at hmap
      rw [← hmap]
      show ((stripFirstTag k q0.2).tag_ids).Nodup
      unfold stripFirstTag
      cases hi : idxOfP (fun i => i == k) q0.2.tag_ids with
      | none => exact hwf.eventsNodup q0 hq0
      | some i =>
        exact (List.eraseIdx_sublist _ _).nodup (hwf.eventsNodup q0 hq0)
    · rw [if_neg hc] at hmap
      rw [← hmap]
      exact hwf.eventsNodup q0 hq0
  · intro q hq x hx
    obtain ⟨q0, hq0, hmap⟩ := List.mem_map.mp hq
    have hxold : x ∈ q0.2.tag_ids ∧ x ≠ k := by
      by_cases hc : q0.2.tag_ids.contains k = true
      · rw [if_pos hc] at hmap
        rw [← hmap] at hx
        have hx2 : x ∈ (stripFirstTag k q0.2).tag_ids := hx
        have hkmem : k ∈ q0.2.tag_ids := by simpa using hc
        have hbound2 : ∀ y ∈ q0.2.tag_ids, y < 65536 := by
          intro y hy
          obtain ⟨p, hpmem, hpy⟩ := List.mem_map.mp (hwf.refInt q0 hq0 y hy)
          exact hpy ▸ hwf.idsBound p hpmem
        obtain ⟨i, hi⟩ := Option.isSome_iff_exists.mp
          (@idxOfP_isSome_of_mem _ (fun i => i == k) k q0.2.tag_ids hkmem
            (by simp))
        obtain ⟨hmod, hknot, _⟩ :=
          eraseFirst_nodup (hwf.eventsNodup q0 hq0) hbound2 hi
        unfold stripFirstTag at hx2
        rw [hi] at hx2
        have hx3 : x ∈ q0.2.tag_ids.eraseIdx i := by
          have : x ∈ q0.2.tag_ids.eraseIdx (i % 65536) := hx2
          rwa [hmod] at this
        refine ⟨(List.eraseIdx_sublist _ _).subset hx3, ?_⟩
        intro hxk
        exact hknot (hxk ▸ hx3)
      · rw [if_neg hc] at hmap
        rw [← hmap] at hx
        refine ⟨hx, ?_⟩
        intro hxk
        exact hc (by simpa using hxk ▸ hx)
    obtain ⟨p, hpmem, hpx⟩ := List.mem_map.mp (hwf.refInt q0 hq0 x hxold.1)
    have hpk : p.1 ≠ k := by rw [hpx]; exact hxold.2
    exact List.mem_map.mpr ⟨p, hsurvive p hpmem hpk, hpx⟩

theorem WF_add_event {db db2 : EventDb} {t : Int} {d : String}
    {sns : List String} (hwf : WF db) (h : add_event db t d sns = .ok db2) :
    WF db2 := by
  obtain ⟨htags, hevents⟩ := add_event_ok h
  constructor
  · rw [htags]; exact hwf.keysNodup
  · rw [htags]; exact hwf.shortsNodup
  · rw [htags]; exact hwf.idsBound
  · rw [hevents]; exact insertEvent_sorted hwf.eventsSorted
  · intro q hq
    rw [hevents] at hq
    rcases mem_insertEvent hq with rfl | hq2
    · exact resolveTagIds_nodup hwf.keysNodup hwf.shortsNodup
        (normalizeShortNames_nodup sns)
    · exact hwf.eventsNodup q hq2
  · intro q hq x hx
    rw [htags]
    rw [hevents] at hq
    rcases mem_insertEvent hq with rfl | hq2
    · exact mem_resolveTagIds hx
    · exact hwf.refInt q hq2 x hx

theorem WF_remove_event {db : EventDb} (hwf : WF db) (id : EventId) :
    WF (remove_event db id).2 := by
  unfold remove_event
  cases hts : id.to_timestamp db with
  | none => exact hwf
  | some t =>
    constructor
    · exact hwf.keysNodup
    · exact hwf.shortsNodup
    · exact hwf.idsBound
    · exact hwf.eventsSorted.sublist (List.eraseP_sublist db.events)
    · intro q hq
      exact hwf.eventsNodup q ((List.eraseP_sublist db.events).subset hq)
    · intro q hq x hx
      exact hwf.refInt q ((List.eraseP_sublist db.events).subset hq) x hx

theorem WF_add_tags_for_event {db db2 : EventDb} {id : EventId}
    {sns : List String} (hwf : WF db)
    (h : add_tags_for_event db id sns = .ok db2) : WF db2 := by
  obtain ⟨tids, t, hres, hts, hdb2⟩ := add_tags_for_event_ok h
  subst hdb2
  constructor
  · exact hwf.keysNodup
  · exact hwf.shortsNodup
  · exact hwf.idsBound
  · show EventsSorted (updateEventAt db.events t (fun e => addTagIds e tids))
    exact updateEventAt_sorted hwf.eventsSorted
  · intro q hq
    have hq2 : q ∈ updateEventAt db.events t (fun e => addTagIds e tids) := hq
    obtain ⟨q0, hq0, hfst, hsnd⟩ := mem_updateEventAt hq2
    rcases hsnd with hold | hnew
    · rw [hold]; exact hwf.eventsNodup q0 hq0
    · rw [hnew]
      exact nodup_dedupConsec natLe_antisymm
        (sortBy_pairwise natLe_total natLe_trans (q0.2.tag_ids ++ tids))
  · intro q hq x hx
    have hq2 : q ∈ updateEventAt db.events t (fun e => addTagIds e tids) := hq
    obtain ⟨q0, hq0, hfst, hsnd⟩ := mem_updateEventAt hq2
    rcases hsnd with hold | hnew
    · rw [hold] at hx
      exact hwf.refInt q0 hq0 x hx
    · rw [hnew] at hx
      have hx2 : x ∈ dedupConsec (sortBy natLe (q0.2.tag_ids ++ tids)) := hx
      have hx3 : x ∈ q0.2.tag_ids ++ tids :=
        (sortBy_perm natLe (q0.2.tag_ids ++ tids)).mem_iff.mp
          (mem_dedupConsec.mp hx2)
      rcases List.mem_append.mp hx3 with h1 | h2
      · exact hwf.refInt q0 hq0 x h1
      · exact resolveShortNames_ok_mem hres x h2

theorem WF_remove_tags_for_event {db db2 : EventDb} {id : EventId}
    {sns : List String} (hwf : WF db)
    (h : remove_tags_for_event db id sns = .ok db2) : WF db2 := by
  obtain ⟨tids, t, hres, hts, hdb2⟩ := remove_tags_for_event_ok h
  subst hdb2
  constructor
  · exact hwf.keysNodup
  · exact hwf.shortsNodup
  · exact hwf.idsBound
  · show EventsSorted (updateEventAt db.events t (fun e => removeTagIds e tids))
    exact updateEventAt_sorted hwf.eventsSorted
  · intro q hq
    have hq2 : q ∈ updateEventAt db.events t (fun e => removeTagIds e tids) := hq
    obtain ⟨q0, hq0, hfst, hsnd⟩ := mem_updateEventAt hq2
    rcases hsnd with hold | hnew
    · rw [hold]; exact hwf.eventsNodup q0 hq0
    · rw [hnew]
      exact (foldl_removeFirstOcc_sublist tids q0.2.tag_ids).nodup
        (hwf.eventsNodup q0 hq0)
  · intro q hq x hx
    have hq2 : q ∈ updateEventAt db.events t (fun e => removeTagIds e tids) := hq
    obtain ⟨q0, hq0, hfst, hsnd⟩ := mem_updateEventAt hq2
    rcases hsnd with hold | hnew
    · rw [hold] at hx
      exact hwf.refInt q0 hq0 x hx
    · rw [hnew] at hx
      exact hwf.refInt q0 hq0 x
        ((foldl_removeFirstOcc_sublist tids q0.2.tag_ids).subset hx)

/-- Every store operation preserves well-formedness. -/
theorem WF_applyOp {db : EventDb} (hwf : WF db) (op : StoreOp) :
    WF (applyOp db op) := by
  cases op with
  | addTag ln sn =>
    show WF (match add_tag db ln sn with
      | .ok db2 => db2
      | .error _ => db)
    cases h : add_tag db ln sn with
    | ok db2 => exact WF_add_tag hwf h
    | error e => exact hwf
  | removeTag sn =>
    show WF (match remove_tag db sn with
      | .ok db2 => db2
      | .error _ => db)
    cases h : remove_tag db sn with
    | ok db2 => exact WF_remove_tag hwf h
    | error e => exact hwf
  | addEvent t d sns =>
    show WF (match add_event db t d sns with
      | .ok db2 => db2
      | .error _ => db)
    cases h : add_event db t d sns with
    | ok db2 => exact WF_add_event hwf h
    | error e => exact hwf
  | removeEvent id => exact WF_remove_event hwf id
  | addTagsForEvent id sns =>
    show WF (match add_tags_for_event db id sns with
      | .ok db2 => db2
      | .error _ => db)
    cases h : add_tags_for_event db id sns with
    | ok db2 => exact WF_add_tags_for_event hwf h
    | error e => exact hwf
  | removeTagsForEvent id sns =>
    show WF (match remove_tags_for_event db id sns with
      | .ok db2 => db2
      | .error _ => db)
    cases h : remove_tags_for_event db id sns with
    | ok db2 => exact WF_remove_tags_for_event hwf h
    | error e => exact hwf

theorem WF_empty : WF emptyDb := by
  constructor <;> simp [emptyDb]

theorem WF_foldl {db : EventDb} (hwf : WF db) :
    ∀ (ops : List StoreOp), WF (ops.foldl applyOp db) := by
  intro ops
  induction ops generalizing db with
  | nil => exact hwf
  | cons op ops ih =>
    rw [List.foldl_cons]
    exact ih (WF_applyOp hwf op)

/-! ### The claims -/

/-- A sample store with three events, used by the witnesses. -/
def db3 : EventDb :=
  ⟨[], [(100, ⟨"a", []⟩), (110, ⟨"b", []⟩), (125, ⟨"c", []⟩)]⟩

/-- C2: for every store and timestamp `t` at which an entry exists,
`to_position (Timestamp t)` returns some position `p` and
`to_timestamp (Position p)` returns `some t` (exact round trip), and
Position 0 denotes the most recent (largest-timestamp) entry. -/
theorem C2_round_trip (db : EventDb) (t : Int) (e : Event)
    (hsorted : EventsSorted db.events) (h : eventsGet db.events t = some e) :
    (∃ p, (EventId.Timestamp t).to_position db = some p ∧
        (EventId.Position p).to_timestamp db = some t) ∧
    (∃ t0, (EventId.Position 0).to_timestamp db = some t0 ∧
        ∀ q ∈ db.events, q.1 ≤ t0) := by
  have hts : (EventId.Timestamp t).to_timestamp db = some t := by
    simp [EventId.to_timestamp, h]
  obtain ⟨p, e2, hp, hg⟩ := to_position_of_to_timestamp hts
  have hg2 : db.events.reverse[p]? = some (t, e2) := by
    rw [← List.get?_eq_getElem?]
    exact hg
  constructor
  · refine ⟨p, hp, ?_⟩
    simp [EventId.to_timestamp, hg, hg2]
  · have hdesc : db.events.reverse.Pairwise (fun a b => b.1 < a.1) :=
      List.pairwise_reverse.mpr hsorted
    have hne : db.events.reverse ≠ [] := by
      intro hnil
      rw [hnil] at hg
      simp at hg
    obtain ⟨x0, R2, hR⟩ := List.exists_cons_of_ne_nil hne
    have hget0 : db.events.reverse.get? 0 = some x0 := by rw [hR]; rfl
    have hget02 : db.events.reverse[0]? = some x0 := by
      rw [← List.get?_eq_getElem?]
      exact hget0
    refine ⟨x0.1, ?_, ?_⟩
    · simp [EventId.to_timestamp, hget0, hget02]
    · intro q hq
      obtain ⟨j, hj⟩ := List.mem_iff_get?.mp (List.mem_reverse.mpr hq)
      cases j with
      | zero =>
        rw [hget0] at hj
        simp at hj
        rw [hj]
      | succ j2 =>
        have := pairwise_get?_lt hdesc hget0 hj (Nat.succ_pos j2)
        exact le_of_lt this

/-- Witness for C2 at a concrete store. -/
theorem C2_round_trip_witness :
    EventsSorted db3.events ∧ eventsGet db3.events 110 = some ⟨"b", []⟩ ∧
    ((∃ p, (EventId.Timestamp 110).to_position db3 = some p ∧
        (EventId.Position p).to_timestamp db3 = some 110) ∧
     (∃ t0, (EventId.Position 0).to_timestamp db3 = some t0 ∧
        ∀ q ∈ db3.events, q.1 ≤ t0)) :=
  ⟨by decide, by decide, C2_round_trip db3 110 ⟨"b", []⟩ (by decide) (by decide)⟩

/-- C10: whenever `to_timestamp` resolves an `EventId` to `some t`, the
event map holds an entry at `t`, so the direct lookups inside `get_event`
and `get_event_mut` always succeed (their panic branches are unreachable)
and both return `some` exactly when `to_timestamp` does. -/
theorem C10_no_panic (db : EventDb) (id : EventId) :
    (∀ t, id.to_timestamp db = some t → (eventsGet db.events t).isSome) ∧
    ((get_event db id).isSome ↔ (id.to_timestamp db).isSome) ∧
    ((get_event_mut db id).isSome ↔ (id.to_timestamp db).isSome) := by
  have hmut : get_event_mut db id = get_event db id := rfl
  exact ⟨fun t ht => eventsGet_isSome_of_to_timestamp ht,
    get_event_isSome_iff,
    by rw [hmut]; exact get_event_isSome_iff⟩

/-- Witness for C10 at a concrete store and position. -/
theorem C10_no_panic_witness : (eventsGet db3.events 110).isSome :=
  (C10_no_panic db3 (EventId.Position 1)).1 110 (by decide)

/-- The wrapping `i64` subtraction agrees with the mathematical difference
whenever that difference is representable in `i64`. -/
theorem i64Sub_eq_of_fits {a b : Int} (hlo : -9223372036854775808 ≤ a - b)
    (hhi : a - b < 9223372036854775808) : i64Sub a b = a - b := by
  unfold i64Sub wrapToI64
  omega

/-- Counterexample to C1 as stated: in the store with events at 100, 110
and 125, the entry at 100 is the oldest (it has no chronological
predecessor), yet `get_event_duration` returns `some 0`, not `none`. -/
theorem C1_counterexample :
    eventsGet db3.events 100 = some ⟨"a", []⟩ ∧
    (∀ q ∈ db3.events, ¬ q.1 < 100) ∧
    get_event_duration db3 (EventId.Timestamp 100) = some 0 := by
  decide

/-- C1 (amended): duration returns `none` when the `EventId` does not
resolve to an existing entry; when the resolved entry has a chronological
predecessor at timestamp `t2` it returns `some` of the wrapping `i64`
difference of `t` and `t2`, which is `some (t - t2)` whenever that
difference is representable in `i64`; and when the resolved entry is the
oldest entry it returns `some 0` (not `none`). -/
theorem C1_duration (db : EventDb) (id : EventId)
    (hsorted : EventsSorted db.events) :
    (get_event db id = none → get_event_duration db id = none) ∧
    (∀ t, id.to_timestamp db = some t →
      ((∀ q ∈ db.events, ¬ q.1 < t) → get_event_duration db id = some 0) ∧
      (∀ t2 e2, (t2, e2) ∈ db.events → t2 < t →
        (∀ q ∈ db.events, q.1 < t → q.1 ≤ t2) →
        get_event_duration db id = some (i64Sub t t2) ∧
        (-9223372036854775808 ≤ t - t2 → t - t2 < 9223372036854775808 →
          get_event_duration db id = some (t - t2)))) := by
  have hdesc : db.events.reverse.Pairwise (fun a b => b.1 < a.1) :=
    List.pairwise_reverse.mpr hsorted
  constructor
  · intro h
    have hex : id.existsInDb db = false := by
      unfold EventId.existsInDb
      rw [h]
      rfl
    unfold get_event_duration
    rw [hex]
    rfl
  · intro t hts
    have hex : id.existsInDb db = true := by
      unfold EventId.existsInDb
      rw [get_event_isSome_iff, hts]
      rfl
    obtain ⟨p, e2, hp, hg⟩ := to_position_of_to_timestamp hts
    have hdur : get_event_duration db id =
        match (EventId.Position (p + 1)).to_timestamp db with
        | some pt => some (i64Sub t pt)
        | none => some 0 := by
      unfold get_event_duration
      rw [hex, hts, hp]
      rfl
    constructor
    · intro hno
      have hnone : db.events.reverse.get? (p + 1) = none := by
        cases hy : db.events.reverse.get? (p + 1) with
        | none => rfl
        | some y =>
          have hlt := pairwise_get?_lt hdesc hg hy (Nat.lt_succ_self p)
          have hmem : y ∈ db.events := List.mem_reverse.mp (by
            obtain ⟨hylen, hye⟩ := List.get?_eq_some.mp hy
            exact hye ▸ List.get_mem _ _ hylen)
          exact absurd hlt (hno y hmem)
      have hnone2 : db.events.reverse[p + 1]? = none := by
        rw [← List.get?_eq_getElem?]
        exact hnone
      rw [hdur]
      simp [EventId.to_timestamp, hnone, hnone2]
    · intro t2 e3 hmem hlt hmax
      obtain ⟨j, hj⟩ := List.mem_iff_get?.mp (List.mem_reverse.mpr hmem)
      have hpj : p < j := by
        rcases Nat.lt_trichotomy j p with hjp | rfl | hpj
        · have := pairwise_get?_lt hdesc hj hg hjp
          simp at this
          omega
        · rw [hg] at hj
          simp at hj
          omega
        · exact hpj
      have hlen : p + 1 < db.events.reverse.length := by
        have := (List.get?_eq_some.mp hj).1
        omega
      obtain ⟨x, hx⟩ : ∃ x, db.events.reverse.get? (p + 1) = some x :=
        ⟨db.events.reverse.get ⟨p + 1, hlen⟩, List.get?_eq_get hlen⟩
      have hx1 : x.1 = t2 := by
        rcases Nat.lt_or_ge (p + 1) j with hlt2 | hge
        · exfalso
          have h1 : t2 < x.1 := pairwise_get?_lt hdesc hx hj hlt2
          have h2 : x.1 < t := pairwise_get?_lt hdesc hg hx (Nat.lt_succ_self p)
          have hxmem : x ∈ db.events := List.mem_reverse.mp (by
            obtain ⟨hxlen, hxe⟩ := List.get?_eq_some.mp hx
            exact hxe ▸ List.get_mem _ _ hxlen)
          have := hmax x hxmem h2
          omega
        · have hj1 : j = p + 1 := by omega
          rw [hj1] at hj
          rw [hj] at hx
          have hx2 : (t2, e3) = x := Option.some_injective _ hx
          rw [← hx2]
      have hx3 : db.events.reverse[p + 1]? = some x := by
        rw [← List.get?_eq_getElem?]
        exact hx
      have hpt : (EventId.Position (p + 1)).to_timestamp db = some t2 := by
        simp [EventId.to_timestamp, hx, hx3, hx1]
      have hfin : get_event_duration db id = some (i64Sub t t2) := by
        rw [hdur, hpt]
      refine ⟨hfin, ?_⟩
      intro hlo hhi
      rw [hfin, i64Sub_eq_of_fits hlo hhi]

/-- Witness for C1 (amended) at a concrete store: the entry at 125 has
predecessor 110, the difference 15 is representable in `i64`, so the
duration is 15. -/
theorem C1_duration_witness :
    get_event_duration db3 (EventId.Timestamp 125) = some 15 := by
  have h := (((C1_duration db3 (EventId.Timestamp 125) (by decide)).2 125
    (by decide)).2 110 ⟨"b", []⟩ (by decide) (by decide) (by decide)).2
    (by decide) (by decide)
  simpa using h

/-- C6: `add_tag` fails with `AlreadyExists` on a short-name collision (the
empty-name checks run first, so the names are assumed nonempty there),
fails with `InvalidInput` whenever either name is empty, and on every
failure the store is unchanged. -/
theorem C6_add_tag_errors (db : EventDb) (long_name short_name : String) :
    ((short_name = "" ∨ long_name = "") →
      ∃ msg, add_tag db long_name short_name = .error ⟨.InvalidInput, msg⟩) ∧
    (short_name ≠ "" → long_name ≠ "" →
      (∃ p ∈ db.tags, p.2.short_name = short_name) →
      add_tag db long_name short_name =
        .error ⟨.AlreadyExists, "A tag with this short name already exists"⟩) ∧
    (∀ err, add_tag db long_name short_name = .error err →
      applyOp db (.addTag long_name short_name) = db) := by
  refine ⟨?_, ?_, ?_⟩
  · intro h
    by_cases hs : short_name = ""
    · unfold add_tag
      rw [if_pos hs]
      exact ⟨_, rfl⟩
    · have hl : long_name = "" := h.resolve_left hs
      unfold add_tag
      rw [if_neg hs, if_pos hl]
      exact ⟨_, rfl⟩
  · intro hs hl hex
    obtain ⟨p, hp, hps⟩ := hex
    have hany : db.tags.any (fun p => p.2.short_name == short_name) = true :=
      List.any_eq_true.mpr ⟨p, hp, by simp [hps]⟩
    unfold add_tag
    rw [if_neg hs, if_neg hl, if_pos hany]
  · intro err herr
    simp [applyOp, herr]

/-- Witness for C6: with the tag `(0, (Long, sn))` present, re-adding short
name `sn` fails with `AlreadyExists`, and an empty short name fails with
`InvalidInput`. -/
theorem C6_add_tag_errors_witness :
    add_tag (⟨[(0, ⟨"Long", "sn"⟩)], []⟩ : EventDb) "Other" "sn" =
      .error ⟨.AlreadyExists, "A tag with this short name already exists"⟩ ∧
    (∃ msg, add_tag (⟨[(0, ⟨"Long", "sn"⟩)], []⟩ : EventDb) "Other" "" =
      .error ⟨.InvalidInput, msg⟩) :=
  ⟨(C6_add_tag_errors ⟨[(0, ⟨"Long", "sn"⟩)], []⟩ "Other" "sn").2.1
      (by decide) (by decide) ⟨(0, ⟨"Long", "sn"⟩), by decide, rfl⟩,
   (C6_add_tag_errors ⟨[(0, ⟨"Long", "sn"⟩)], []⟩ "Other" "").1 (Or.inl rfl)⟩

/-- C5: `add_event` fails with `InvalidInput` when any short name does not
resolve, `add_tags_for_event` fails when any short name does not resolve,
and on any error of either operation the store is unchanged (all
validation happens before any mutation). -/
theorem C5_validation (db : EventDb) (t : Int) (d : String) (id : EventId)
    (sns : List String) :
    ((∃ sn ∈ sns, sn ∉ db.tags.map (fun p => p.2.short_name)) →
      ∃ msg, add_event db t d sns = .error ⟨.InvalidInput, msg⟩) ∧
    ((∃ sn ∈ sns, tag_id_from_short_name db sn = none) →
      add_tags_for_event db id sns = .error "Could not find a specified tag") ∧
    (∀ err, add_event db t d sns = .error err →
      applyOp db (.addEvent t d sns) = db) ∧
    (∀ msg, add_tags_for_event db id sns = .error msg →
      applyOp db (.addTagsForEvent id sns) = db) := by
  refine ⟨?_, ?_, ?_, ?_⟩
  · intro h
    obtain ⟨sn, hmem, hnot⟩ := h
    have hmem2 : sn ∈ normalizeShortNames sns := by
      unfold normalizeShortNames
      exact mem_dedupConsec.mpr ((sortBy_perm strLe sns).mem_iff.mpr hmem)
    refine ⟨"Event contains invalid short names", ?_⟩
    simp [add_event]
    refine ⟨sn, hmem2, ?_⟩
    intro k tg hk he
    exact hnot (List.mem_map.mpr ⟨(k, tg), hk, he⟩)
  · intro h
    have herr := resolveShortNames_error h
    simp [add_tags_for_event, herr]
  · intro err herr
    simp [applyOp, herr]
  · intro msg hmsg
    simp [applyOp, hmsg]

/-- Witness for C5: with only short name `b` registered, using `zzz`
fails both operations. -/
theorem C5_validation_witness :
    (∃ msg, add_event (⟨[(0, ⟨"B", "b"⟩)], []⟩ : EventDb) 7 "d" ["zzz"] =
      .error ⟨.InvalidInput, msg⟩) ∧
    add_tags_for_event (⟨[(0, ⟨"B", "b"⟩)], []⟩ : EventDb)
        (EventId.Timestamp 7) ["zzz"] = .error "Could not find a specified tag" :=
  ⟨(C5_validation ⟨[(0, ⟨"B", "b"⟩)], []⟩ 7 "d" (EventId.Timestamp 7) ["zzz"]).1
      ⟨"zzz", by decide, by decide⟩,
   (C5_validation ⟨[(0, ⟨"B", "b"⟩)], []⟩ 7 "d" (EventId.Timestamp 7) ["zzz"]).2.1
      ⟨"zzz", by decide, by decide⟩⟩

/-- C7: adding an event at an occupied timestamp overwrites it entirely:
after two successful `add_event` calls at the same timestamp there is
exactly one entry at that timestamp and it carries the description and the
tag ids resolved in the second call. -/
theorem C7_overwrite (db db1 db2 : EventDb) (t : Int) (dA dB : String)
    (lA lB : List String) (hsorted : EventsSorted db.events)
    (h1 : add_event db t dA lA = .ok db1)
    (h2 : add_event db1 t dB lB = .ok db2) :
    db2.events.countP (fun q => q.1 == t) = 1 ∧
    get_event db2 (EventId.Timestamp t) =
      some ⟨dB, resolveTagIds db1 (normalizeShortNames lB)⟩ := by
  obtain ⟨ht1, he1⟩ := add_event_ok h1
  obtain ⟨ht2, he2⟩ := add_event_ok h2
  have hs1 : EventsSorted db1.events := by
    rw [he1]
    exact insertEvent_sorted hsorted
  have hs2 : EventsSorted db2.events := by
    rw [he2]
    exact insertEvent_sorted hs1
  have hget : eventsGet db2.events t =
      some ⟨dB, resolveTagIds db1 (normalizeShortNames lB)⟩ := by
    rw [he2]
    exact eventsGet_insertEvent_self
  constructor
  · exact countP_key_eq_one (sorted_keys_nodup hs2) ⟨_, eventsGet_mem hget⟩
  · simp [get_event, EventId.to_timestamp, hget]

/-- Witness for C7 at a concrete store: overwriting the event at
timestamp 5 keeps only the second version. -/
theorem C7_overwrite_witness :
    (⟨[(0, ⟨"Zlong", "z"⟩)], [(5, ⟨"B", []⟩)]⟩ : EventDb).events.countP
      (fun q => q.1 == 5) = 1 ∧
    get_event (⟨[(0, ⟨"Zlong", "z"⟩)], [(5, ⟨"B", []⟩)]⟩ : EventDb)
        (EventId.Timestamp 5) =
      some ⟨"B", resolveTagIds ⟨[(0, ⟨"Zlong", "z"⟩)], [(5, ⟨"A", [0]⟩)]⟩
        (normalizeShortNames [])⟩ :=
  C7_overwrite ⟨[(0, ⟨"Zlong", "z"⟩)], []⟩
    ⟨[(0, ⟨"Zlong", "z"⟩)], [(5, ⟨"A", [0]⟩)]⟩
    ⟨[(0, ⟨"Zlong", "z"⟩)], [(5, ⟨"B", []⟩)]⟩
    5 "A" "B" ["z"] [] (by decide) (by decide) (by decide)

/-- C8: when `add_tag` succeeds (on a registry that is not full, so the
`u16` id scan of the source terminates), the new label is stored under the
smallest id not in use at the time of the call. -/
theorem C8_smallest_free_id (db db2 : EventDb) (long_name short_name : String)
    (hlen : db.tags.length < 65536)
    (h : add_tag db long_name short_name = .ok db2) :
    ∃ k, db2.tags = db.tags ++ [(k, ⟨long_name, short_name⟩)] ∧
      db2.events = db.events ∧
      k ∉ db.tags.map Prod.fst ∧ ∀ m < k, m ∈ db.tags.map Prod.fst := by
  unfold add_tag at h
  by_cases hs : short_name = ""
  · rw [if_pos hs] at h
    simp at h
  · rw [if_neg hs] at h
    by_cases hl : long_name = ""
    · rw [if_pos hl] at h
      simp at h
    · rw [if_neg hl] at h
      by_cases hany : db.tags.any (fun p => p.2.short_name == short_name) = true
      · rw [if_pos hany] at h
        simp at h
      · rw [if_neg hany] at h
        cases hf : freshTagId (db.tags.map Prod.fst) with
        | none =>
          have := @freshTagId_isSome (db.tags.map Prod.fst)
            (by simpa using hlen)
          rw [hf] at this
          simp at this
        | some n =>
          rw [hf] at h
          have hdb2 := Option.some_injective _ (congrArg Except.toOption h)
          obtain ⟨hfree, hlt, hsmall⟩ := freshTagId_spec hf
          exact ⟨n, by rw [← hdb2], by rw [← hdb2], hfree, hsmall⟩

/-- C3: removing a label whose short name exists removes it from the
registry and strips its id from every entry (stated under the store
invariants: distinct keys, distinct short names, `u16` ids, deduplicated
entry label lists with referential integrity); removing a nonexistent
short name fails with `InvalidInput` and leaves the store unchanged. -/
theorem C3_remove_label (db : EventDb) (sn : String) :
    ((∀ p ∈ db.tags, p.2.short_name ≠ sn) →
      remove_tag db sn =
        .error ⟨.InvalidInput, "That short name does not exist"⟩ ∧
      applyOp db (.removeTag sn) = db) ∧
    (∀ k tg, (k, tg) ∈ db.tags → tg.short_name = sn →
      (db.tags.map Prod.fst).Nodup →
      (db.tags.map (fun p => p.2.short_name)).Nodup →
      (∀ p ∈ db.tags, p.1 < 65536) →
      (∀ q ∈ db.events, q.2.tag_ids.Nodup) →
      RefInt db →
      ∃ db2, remove_tag db sn = .ok db2 ∧
        (∀ p ∈ db2.tags, p.1 ≠ k ∧ p.2.short_name ≠ sn) ∧
        (∀ q ∈ db2.events, k ∉ q.2.tag_ids)) := by
  constructor
  · intro hno
    have hfil : db.tags.filter (fun p => p.2.short_name == sn) = [] :=
      List.filter_eq_nil_iff.mpr (fun p hp => by simpa using hno p hp)
    have herr : remove_tag db sn =
        .error ⟨.InvalidInput, "That short name does not exist"⟩ := by
      show (match ((db.tags.filter (fun p => p.2.short_name == sn)).map
          Prod.fst).head? with
        | none => (Except.error ⟨.InvalidInput, "That short name does not exist"⟩ :
            Except EventDbError EventDb)
        | some k =>
          Except.ok ⟨db.tags.eraseP (fun p => p.1 == k),
            db.events.map (fun q =>
              if q.2.tag_ids.contains k then (q.1, stripFirstTag k q.2) else q)⟩) =
        Except.error ⟨.InvalidInput, "That short name does not exist"⟩
      rw [hfil]
      rfl
    exact ⟨herr, by simp [applyOp, herr]⟩
  · intro k tg hmem hsn hkeys hshorts hbound hev hri
    have hmemf : (k, tg) ∈ db.tags.filter (fun p => p.2.short_name == sn) :=
      List.mem_filter.mpr ⟨hmem, by simp [hsn]⟩
    have hhead : ((db.tags.filter (fun p => p.2.short_name == sn)).map
        Prod.fst).head? = some k := by
      cases hf : db.tags.filter (fun p => p.2.short_name == sn) with
      | nil => rw [hf] at hmemf; simp at hmemf
      | cons p0 rest =>
        have hp0 : p0 ∈ db.tags.filter (fun p => p.2.short_name == sn) := by
          rw [hf]
          exact List.mem_cons_self _ _
        obtain ⟨hp0mem, hp0sn⟩ := List.mem_filter.mp hp0
        have : p0 = (k, tg) :=
          unique_short hshorts hp0mem hmem (by rw [hsn]; simpa using hp0sn)
        rw [this]
        rfl
    have hrun : remove_tag db sn =
        Except.ok ⟨db.tags.eraseP (fun p => p.1 == k),
          db.events.map (fun q =>
            if q.2.tag_ids.contains k then (q.1, stripFirstTag k q.2) else q)⟩ := by
      show (match ((db.tags.filter (fun p => p.2.short_name == sn)).map
          Prod.fst).head? with
        | none => (Except.error ⟨.InvalidInput, "That short name does not exist"⟩ :
            Except EventDbError EventDb)
        | some k2 =>
          Except.ok ⟨db.tags.eraseP (fun p => p.1 == k2),
            db.events.map (fun (q : Int × Event) =>
              if q.2.tag_ids.contains k2 then (q.1, stripFirstTag k2 q.2) else q)⟩) =
        _
      rw [hhead]
    obtain ⟨hkey1, _⟩ := eraseP_key_lemma hkeys ⟨tg, hmem⟩
    refine ⟨⟨db.tags.eraseP (fun p => p.1 == k),
      db.events.map (fun q =>
        if q.2.tag_ids.contains k then (q.1, stripFirstTag k q.2) else q)⟩,
      hrun, ?_, ?_⟩
    · intro p hp
      have hpk := hkey1 p hp
      refine ⟨hpk, ?_⟩
      intro hps
      have hpmem : p ∈ db.tags := (List.eraseP_sublist db.tags).subset hp
      have : p = (k, tg) := unique_short hshorts hpmem hmem (by rw [hps, hsn])
      exact hpk (by rw [this])
    · intro q hq
      obtain ⟨q0, hq0, hmap⟩ := List.mem_map.mp hq
      by_cases hc : q0.2.tag_ids.contains k = true
      · rw [if_pos hc] at hmap
        have hkmem : k ∈ q0.2.tag_ids := by simpa using hc
        have hbound2 : ∀ x ∈ q0.2.tag_ids, x < 65536 := by
          intro x hx
          obtain ⟨p, hpmem, hpx⟩ := List.mem_map.mp (hri q0 hq0 x hx)
          exact hpx ▸ hbound p hpmem
        obtain ⟨i, hi⟩ := Option.isSome_iff_exists.mp
          (@idxOfP_isSome_of_mem _ (fun i => i == k) k q0.2.tag_ids hkmem (by simp))
        obtain ⟨hmod, hknot, _⟩ := eraseFirst_nodup (hev q0 hq0) hbound2 hi
        rw [← hmap]
        show k ∉ (stripFirstTag k q0.2).tag_ids
        unfold stripFirstTag
        rw [hi]
        show k ∉ q0.2.tag_ids.eraseIdx (i % 65536)
        rw [hmod]
        exact hknot
      · rw [if_neg hc] at hmap
        rw [← hmap]
        show k ∉ q0.2.tag_ids
        intro hkmem
        exact hc (by simpa using hkmem)

/-- Witness for C3: removing `rmv` (id 0) from a two-tag store strips id 0
from the event at 5; removing `zzz` fails with `InvalidInput`. -/
theorem C3_remove_label_witness :
    (∃ db2, remove_tag
        (⟨[(0, ⟨"R", "rmv"⟩), (1, ⟨"K", "keep"⟩)],
          [(5, ⟨"e", [0, 1]⟩)]⟩ : EventDb) "rmv" = .ok db2 ∧
      (∀ p ∈ db2.tags, p.1 ≠ 0 ∧ p.2.short_name ≠ "rmv") ∧
      (∀ q ∈ db2.events, 0 ∉ q.2.tag_ids)) ∧
    remove_tag (⟨[(0, ⟨"R", "rmv"⟩), (1, ⟨"K", "keep"⟩)],
        [(5, ⟨"e", [0, 1]⟩)]⟩ : EventDb) "zzz" =
      .error ⟨.InvalidInput, "That short name does not exist"⟩ :=
  ⟨(C3_remove_label ⟨[(0, ⟨"R", "rmv"⟩), (1, ⟨"K", "keep"⟩)],
        [(5, ⟨"e", [0, 1]⟩)]⟩ "rmv").2 0 ⟨"R", "rmv"⟩ (by decide) (by decide)
      (by decide) (by decide) (by decide) (by decide) (by decide),
   ((C3_remove_label ⟨[(0, ⟨"R", "rmv"⟩), (1, ⟨"K", "keep"⟩)],
        [(5, ⟨"e", [0, 1]⟩)]⟩ "zzz").1 (by decide)).1⟩

/-- Counterexample to C4 as stated: with label `b` created before label
`a` (so `b` has id 0 and `a` has id 1), a successful `add_entry` stores
the label ids in short-name order `[1, 0]`, which is not ascending numeric
order. -/
theorem C4_counterexample :
    add_tag emptyDb "Btag" "b" = .ok ⟨[(0, ⟨"Btag", "b"⟩)], []⟩ ∧
    add_tag ⟨[(0, ⟨"Btag", "b"⟩)], []⟩ "Atag" "a" =
      .ok ⟨[(0, ⟨"Btag", "b"⟩), (1, ⟨"Atag", "a"⟩)], []⟩ ∧
    add_event ⟨[(0, ⟨"Btag", "b"⟩), (1, ⟨"Atag", "a"⟩)], []⟩ 10 "d" ["a", "b"] =
      .ok ⟨[(0, ⟨"Btag", "b"⟩), (1, ⟨"Atag", "a"⟩)], [(10, ⟨"d", [1, 0]⟩)]⟩ ∧
    ¬ List.Pairwise (fun x y : Nat => x ≤ y) [1, 0] := by
  decide

/-- C4 (amended): after a successful `add_event` every entry is either an
old entry or the new one, whose label list is deduplicated (but ordered by
short name, not necessarily numerically); `add_tags_for_event` leaves
every entry either unchanged or with a sorted, deduplicated label list;
`remove_tags_for_event` and `remove_tag` only ever shrink a label list in
place (sublist), preserving sortedness and dedup of lists that had them. -/
theorem C4_label_sets (db : EventDb) :
    (∀ t d sns db2, (db.tags.map Prod.fst).Nodup →
      (db.tags.map (fun p => p.2.short_name)).Nodup →
      add_event db t d sns = .ok db2 →
      ∀ q ∈ db2.events, q ∈ db.events ∨ (q.1 = t ∧ q.2.tag_ids.Nodup)) ∧
    (∀ id sns db2, add_tags_for_event db id sns = .ok db2 →
      ∀ q ∈ db2.events, q ∈ db.events ∨
        ∃ q0 ∈ db.events, q.1 = q0.1 ∧
          q.2.tag_ids.Pairwise (· ≤ ·) ∧ q.2.tag_ids.Nodup) ∧
    (∀ id sns db2, remove_tags_for_event db id sns = .ok db2 →
      ∀ q ∈ db2.events, ∃ q0 ∈ db.events, q.1 = q0.1 ∧
        q.2.tag_ids.Sublist q0.2.tag_ids) ∧
    (∀ sn db2, remove_tag db sn = .ok db2 →
      ∀ q ∈ db2.events, ∃ q0 ∈ db.events, q.1 = q0.1 ∧
        q.2.tag_ids.Sublist q0.2.tag_ids) := by
  refine ⟨?_, ?_, ?_, ?_⟩
  · intro t d sns db2 hkeys hshorts h q hq
    obtain ⟨htags, hevents⟩ := add_event_ok h
    rw [hevents] at hq
    rcases mem_insertEvent hq with rfl | hq2
    · right
      exact ⟨rfl, resolveTagIds_nodup hkeys hshorts (normalizeShortNames_nodup sns)⟩
    · left
      exact hq2
  · intro id sns db2 h q hq
    obtain ⟨tids, t, hres, hts, hdb2⟩ := add_tags_for_event_ok h
    rw [hdb2] at hq
    have hq2 : q ∈ updateEventAt db.events t (fun e => addTagIds e tids) := hq
    obtain ⟨q0, hq0, hfst, hsnd⟩ := mem_updateEventAt hq2
    rcases hsnd with hold | hnew
    · left
      have : q = q0 := Prod.ext hfst hold
      rwa [this]
    · right
      refine ⟨q0, hq0, hfst, ?_, ?_⟩
      · rw [hnew]
        show ((addTagIds q0.2 tids).tag_ids).Pairwise (· ≤ ·)
        unfold addTagIds
        have hpw := sortBy_pairwise natLe_total natLe_trans (q0.2.tag_ids ++ tids)
        have hsub := dedupConsec_sublist (sortBy natLe (q0.2.tag_ids ++ tids))
        exact (hpw.sublist hsub).imp (fun hxy => by simpa [natLe] using hxy)
      · rw [hnew]
        show ((addTagIds q0.2 tids).tag_ids).Nodup
        unfold addTagIds
        exact nodup_dedupConsec natLe_antisymm
          (sortBy_pairwise natLe_total natLe_trans (q0.2.tag_ids ++ tids))
  · intro id sns db2 h q hq
    obtain ⟨tids, t, hres, hts, hdb2⟩ := remove_tags_for_event_ok h
    rw [hdb2] at hq
    have hq2 : q ∈ updateEventAt db.events t (fun e => removeTagIds e tids) := hq
    obtain ⟨q0, hq0, hfst, hsnd⟩ := mem_updateEventAt hq2
    refine ⟨q0, hq0, hfst, ?_⟩
    rcases hsnd with hold | hnew
    · rw [hold]
    · rw [hnew]
      exact foldl_removeFirstOcc_sublist tids q0.2.tag_ids
  · intro sn db2 h q hq
    obtain ⟨k, tg, hmem, hsn, hdb2⟩ := remove_tag_ok h
    rw [hdb2] at hq
    obtain ⟨q0, hq0, hmap⟩ := List.mem_map.mp hq
    by_cases hc : q0.2.tag_ids.contains k = true
    · rw [if_pos hc] at hmap
      refine ⟨q0, hq0, by rw [← hmap], ?_⟩
      rw [← hmap]
      show ((stripFirstTag k q0.2).tag_ids).Sublist q0.2.tag_ids
      unfold stripFirstTag
      cases hi : idxOfP (fun i => i == k) q0.2.tag_ids with
      | none => exact List.Sublist.refl _
      | some i => exact List.eraseIdx_sublist _ _
    · rw [if_neg hc] at hmap
      exact ⟨q0, hq0, by rw [← hmap], by rw [← hmap]⟩

/-- Witness for C4 (amended): the `[1, 0]` entry produced in the
counterexample is still duplicate-free. -/
theorem C4_label_sets_witness :
    ∀ q ∈ (⟨[(0, ⟨"Btag", "b"⟩), (1, ⟨"Atag", "a"⟩)],
        [(10, ⟨"d", [1, 0]⟩)]⟩ : EventDb).events,
      q ∈ (⟨[(0, ⟨"Btag", "b"⟩), (1, ⟨"Atag", "a"⟩)], []⟩ : EventDb).events ∨
        (q.1 = 10 ∧ q.2.tag_ids.Nodup) :=
  (C4_label_sets ⟨[(0, ⟨"Btag", "b"⟩), (1, ⟨"Atag", "a"⟩)], []⟩).1 10 "d"
    ["a", "b"] ⟨[(0, ⟨"Btag", "b"⟩), (1, ⟨"Atag", "a"⟩)], [(10, ⟨"d", [1, 0]⟩)]⟩
    (by decide) (by decide) (by decide)

/-- Witness for C8: with ids 0 and 2 in use, the freed id 1 is reused. -/
theorem C8_smallest_free_id_witness :
    ∃ k, (⟨[(0, ⟨"A", "a"⟩), (2, ⟨"C", "c"⟩), (1, ⟨"N", "n"⟩)], []⟩ : EventDb).tags =
        (⟨[(0, ⟨"A", "a"⟩), (2, ⟨"C", "c"⟩)], []⟩ : EventDb).tags ++
          [(k, ⟨"N", "n"⟩)] ∧
      (⟨[(0, ⟨"A", "a"⟩), (2, ⟨"C", "c"⟩), (1, ⟨"N", "n"⟩)], []⟩ : EventDb).events =
        (⟨[(0, ⟨"A", "a"⟩), (2, ⟨"C", "c"⟩)], []⟩ : EventDb).events ∧
      k ∉ (⟨[(0, ⟨"A", "a"⟩), (2, ⟨"C", "c"⟩)], []⟩ : EventDb).tags.map Prod.fst ∧
      ∀ m < k, m ∈ (⟨[(0, ⟨"A", "a"⟩), (2, ⟨"C", "c"⟩)], []⟩ : EventDb).tags.map
        Prod.fst :=
  C8_smallest_free_id ⟨[(0, ⟨"A", "a"⟩), (2, ⟨"C", "c"⟩)], []⟩
    ⟨[(0, ⟨"A", "a"⟩), (2, ⟨"C", "c"⟩), (1, ⟨"N", "n"⟩)], []⟩ "N" "n"
    (by decide) (by decide)

/-- C9: referential integrity is an invariant of the store: after any
sequence of `add_tag`, `remove_tag`, `add_event`, `remove_event`,
`add_tags_for_event` and `remove_tags_for_event` calls starting from the
empty store, every tag id referenced by any event is a key of the tag
registry. -/
theorem C9_referential_integrity (ops : List StoreOp) :
    RefInt (ops.foldl applyOp emptyDb) :=
  (WF_foldl WF_empty ops).refInt

/-- Witness for C9 on a concrete call sequence ending in a tag removal. -/
theorem C9_referential_integrity_witness :
    RefInt ([StoreOp.addTag "Along" "a", StoreOp.addTag "Blong" "b",
      StoreOp.addEvent 4 "d" ["a", "b"],
      StoreOp.removeTag "a"].foldl applyOp emptyDb) :=
  C9_referential_integrity [StoreOp.addTag "Along" "a", StoreOp.addTag "Blong" "b",
    StoreOp.addEvent 4 "d" ["a", "b"], StoreOp.removeTag "a"]

end TimeTrack
